import Mathlib

/-!
Shallow embedding of the tokenizer in `src/src/tokenize.js` (protobuf.js
`tokenize`).  Source text and tokens are modelled as `List Char`; the
closure state of one tokenizer instance is the structure `TokState`.
JavaScript regular expressions are transliterated into explicit scans,
documented at each definition.  `charAt` out of range returns `""` in JS;
we model reads with `List.getElem?` and note at each use how the
out-of-range case is mirrored.
-/

namespace Tokenize

/-- Character class of the JS regex `/\s/` (`whitespaceRe` and the
whitespace members of `delimRe`). -/
def isJsSpace (c : Char) : Bool :=
  c = ' ' || c = '\t' || c = '\n' || c = '\x0b' || c = '\x0c' || c = '\r' ||
  c = '\u00a0' || c = '\u1680' || ('\u2000' ≤ c && c ≤ '\u200a') ||
  c = '\u2028' || c = '\u2029' || c = '\u202f' || c = '\u205f' || c = '\u3000' ||
  c = '\ufeff'

/-- Character class of `delimRe = /[\s{}=;:[\],'"()<>]/`. -/
def isDelimChar (c : Char) : Bool :=
  isJsSpace c || c = '{' || c = '}' || c = '=' || c = ';' || c = ':' ||
  c = '[' || c = ']' || c = ',' || c = '\'' || c = '"' || c = '(' || c = ')' ||
  c = '<' || c = '>'

/-- Line terminators, the characters NOT matched by `.` in a JS regex. -/
def isLineTerm (c : Char) : Bool :=
  c = '\n' || c = '\r' || c = '\u2028' || c = '\u2029'

/-- The object `unescapeMap` of the source, as a function: the decoded
replacement for an escaped character, `[]` when the character has no entry
(`unescapeMap[$1] || ""`). -/
def unescapeMapF (c : Char) : List Char :=
  if c = '0' then ['\x00']
  else if c = 'r' then ['\r']
  else if c = 'n' then ['\n']
  else if c = 't' then ['\t']
  else []

/-- The source function `unescape`:
`str.replace(/\\(.?)/g, cb)` where `cb` returns `$1` when `$1` is `"\\"` or
`""`, and `unescapeMap[$1] || ""` otherwise.  The group `(.?)` does not
match a line terminator, so a backslash directly before a line terminator is
matched alone (group empty, replaced by the empty string) and scanning
resumes at the terminator; a trailing backslash is likewise matched alone
and replaced by the empty string. -/
def unescape : List Char → List Char
  | [] => []
  | ['\\'] => []
  | '\\' :: c :: rest =>
    if c = '\\' then '\\' :: unescape rest
    else if isLineTerm c then c :: unescape rest
    else unescapeMapF c ++ unescape rest
  | c :: rest => c :: unescape rest

/-- Modelled from the claim text of C5: decode table for a two-character
escape sequence per the claim's words (`\\` gives a backslash, table
entries 0, r, n, t, anything else gives the empty string). -/
def claimEscapeTable (c : Char) : List Char :=
  if c = '\\' then ['\\']
  else if c = '0' then ['\x00']
  else if c = 'r' then ['\r']
  else if c = 'n' then ['\n']
  else if c = 't' then ['\t']
  else []

/-- Modelled from the claim text of C5: the reference decoder exactly as the
claim states it, in particular "a trailing lone backslash at end of body is
preserved as-is", and every backslash-introduced two-character sequence is
replaced via the table. -/
def unescapeClaim : List Char → List Char
  | [] => []
  | ['\\'] => ['\\']
  | '\\' :: c :: rest => claimEscapeTable c ++ unescapeClaim rest
  | c :: rest => c :: unescapeClaim rest

/-- Amended reference decoder: like `unescapeClaim` but a trailing lone
backslash is dropped, and a backslash directly before a line terminator
is dropped alone, the terminator being kept (the JS `.` in the replace
pattern does not match line terminators). -/
def unescapeClaimAmended : List Char → List Char
  | [] => []
  | ['\\'] => []
  | '\\' :: c :: rest =>
    if isLineTerm c then c :: unescapeClaimAmended rest
    else claimEscapeTable c ++ unescapeClaimAmended rest
  | c :: rest => c :: unescapeClaimAmended rest

/-- Number of newline characters in a list. -/
def countNL (l : List Char) : Nat := l.count '\n'

/-- The span of source characters from index `a` (inclusive) to index `b`
(exclusive); the characters the scanner consumed when moving the cursor
from `a` to `b`. -/
def consumed (s : List Char) (a b : Nat) : List Char := (s.take b).drop a

/-- JS `String.prototype.substring`: negative-free here, but it clamps both
arguments to the string length and swaps them when `a > b`. -/
def jsSubstring (s : List Char) (a b : Nat) : List Char :=
  let a' := min a s.length
  let b' := min b s.length
  (s.take (max a' b')).drop (min a' b')

/-- JS `String.prototype.trim` over our character model. -/
def jsTrim (l : List Char) : List Char :=
  ((l.dropWhile isJsSpace).reverse.dropWhile isJsSpace).reverse

/-- One line of a captured comment is rewritten by
`line.replace(setCommentRe, "")` with `setCommentRe = /^ *[*\/]+ */`: when,
after leading spaces, the line begins with at least one `*` or `/`, that
run and the spaces around it are removed; otherwise the line is unchanged. -/
def stripDecoration (l : List Char) : List Char :=
  match l.dropWhile (fun c => c = ' ') with
  | c :: rest =>
    if c = '*' || c = '/' then
      ((c :: rest).dropWhile (fun c => c = '*' || c = '/')).dropWhile (fun c => c = ' ')
    else l
  | [] => l

/-- JS `split(/\n/)`: splitting the empty string gives `[""]`. -/
def splitNL : List Char → List (List Char)
  | [] => [[]]
  | c :: rest =>
    if c = '\n' then [] :: splitNL rest
    else
      match splitNL rest with
      | h :: t => (c :: h) :: t
      | [] => [[c]]

/-- The text normalization performed by `setComment`: split the captured
span on newlines, strip the comment decoration of each line and trim it,
rejoin with newlines and trim the result. -/
def normalizeComment (l : List Char) : List Char :=
  jsTrim (List.intercalate ['\n'] ((splitNL l).map (fun li => jsTrim (stripDecoration li))))

/-- The closure state of one `tokenize(source)` instance: the variables
`source`, `offset`, `line`, `commentType`, `commentText`, `commentLine`,
`stack` and `stringDelim`.  `length` is `source.length`.  `null` fields are
modelled with `Option`. -/
structure TokState where
  source : List Char
  offset : Nat
  line : Nat
  commentType : Option Char
  commentText : Option (List Char)
  commentLine : Nat
  stack : List (List Char)
  stringDelim : Option Char
deriving DecidableEq, Repr

/-- The initial state built by `tokenize(source)`. -/
def tokenize (source : List Char) : TokState :=
  { source := source, offset := 0, line := 1,
    commentType := none, commentText := none, commentLine := 0,
    stack := [], stringDelim := none }

/-- The three `illegal` errors thrown by the tokenizer, each carrying the
line number interpolated into the message; `illegalToken` carries the
actual and the expected token interpolated by `skip`. -/
inductive TokErr where
  | illegalString (line : Nat)
  | illegalComment (line : Nat)
  | illegalToken (actual : Option (List Char)) (expected : List Char) (line : Nat)
deriving DecidableEq, Repr

/-- The source function `setComment(start, end)`: store the marker character
at `start`, the current line, and the normalized text of
`source.substring(start + 1, end)`. -/
def setComment (st : TokState) (start end_ : Nat) : TokState :=
  { st with
    commentType := st.source[start]?,
    commentLine := st.line,
    commentText := some (normalizeComment (jsSubstring st.source (start + 1) end_)) }

/-- Scan for the first `'\n'` in the list, `i` being the absolute index of
the head.  Transliterates the line-comment loop
`while (charAt(++offset) !== "\n") if (offset === length) return null;`
searched from its first probed position. -/
def findNL : List Char → Nat → Option Nat
  | [], _ => none
  | c :: rest, i => if c = '\n' then some i else findNL rest (i + 1)

/-- Absolute index of the newline ending a line comment whose second slash
sits at `o2`; `none` when the input ends first (the loop returns `null`
with `offset = length`). -/
def lineCommentEnd (s : List Char) (o2 : Nat) : Option Nat :=
  findNL (s.drop (o2 + 1)) (o2 + 1)

/-- Scan for the first adjacent pair `*` `/`, returning the absolute index
of the `/`; `i` is the absolute index of the first list element.
Transliterates the block-comment loop's exit test `prev === "*" && curr === "/"`. -/
def findStarSlash : List Char → Nat → Option Nat
  | a :: b :: rest, i =>
    if a = '*' && b = '/' then some (i + 1) else findStarSlash (b :: rest) (i + 1)
  | _, _ => none

/-- Absolute index of the `/` closing a block comment whose opening `*` sits
at `o2` (that `*` may itself serve as the closing star, as in `/*/`). -/
def blockEnd (s : List Char) (o2 : Nat) : Option Nat :=
  findStarSlash (s.drop o2) o2

/-- The run of whitespace from `offset` on, consumed by the scanner's
whitespace loop. -/
def wsChunk (s : List Char) (offset : Nat) : List Char :=
  (s.drop offset).takeWhile isJsSpace

/-- How one invocation of the scanning loop of `next()` ends: `eof` is the
`return null` exits, `slash` is `return "/"` (the cursor already moved past
the slash), and `tokenAt` reaches the token-extraction code below the loop. -/
inductive ScanStop where
  | eof (st : TokState)
  | slash (st : TokState)
  | tokenAt (st : TokState)
deriving DecidableEq, Repr

/-- The state carried by a `ScanStop`. -/
def stateOf : ScanStop → TokState
  | .eof st => st
  | .slash st => st
  | .tokenAt st => st

/-- The `do { ... } while (repeat)` loop of `next()`: skip whitespace
(counting newlines), recognize `/`-introduced comments (delegating the text
capture to `setComment`), loop after a comment, and otherwise classify how
scanning stops.  Newline counting inside the loops is expressed as
`countNL` of the span the loop consumed, which the loops increment one
newline at a time. -/
def scanSkip (st : TokState) : Except TokErr ScanStop :=
  if st.offset = st.source.length then .ok (.eof st)
  else
    let ws := wsChunk st.source st.offset
    let o1 := st.offset + ws.length
    let l1 := st.line + countNL ws
    if o1 = st.source.length then .ok (.eof { st with offset := o1, line := l1 })
    else
      let st1 : TokState := { st with offset := o1, line := l1 }
      if h2 : st.source[o1]? = some '/' then
        if o1 + 1 = st.source.length then .error (.illegalComment l1)
        else
          match st.source[o1 + 1]? with
          | some c =>
            if c = '/' then
              let isC := st.source[o1 + 2]? = some '/'
              if hnl : lineCommentEnd st.source (o1 + 1) = none then
                .ok (.eof { st1 with offset := st.source.length })
              else
                let nl := (lineCommentEnd st.source (o1 + 1)).get
                  (Option.isSome_iff_ne_none.mpr hnl)
                let st2 := { st1 with offset := nl + 1 }
                let st3 := if isC then setComment st2 (o1 + 2) nl else st2
                scanSkip { st3 with line := st3.line + 1 }
            else if c = '*' then
              let isC := st.source[o1 + 2]? = some '*'
              if hbe : blockEnd st.source (o1 + 1) = none then
                .error (.illegalComment (l1 + countNL (st.source.drop (o1 + 1))))
              else
                let p := (blockEnd st.source (o1 + 1)).get
                  (Option.isSome_iff_ne_none.mpr hbe)
                let l2 := l1 + countNL (consumed st.source (o1 + 1) p)
                let st2 := { st1 with offset := p + 1, line := l2 }
                let st3 := if isC then setComment st2 (o1 + 2) (p - 1) else st2
                scanSkip st3
            else .ok (.slash { st1 with offset := o1 + 1 })
          | none => .ok (.slash { st1 with offset := o1 + 1 })
      else .ok (.tokenAt st1)
termination_by st.source.length - st.offset
decreasing_by
  · have hfind : ∀ (l : List Char) (i r : Nat), findNL l i = some r → i ≤ r ∧ r < i + l.length := by
      intro l
      induction l with
      | nil => intro i r hr; simp [findNL] at hr
      | cons c rest ih =>
        intro i r hr
        simp only [findNL] at hr
        by_cases hc : c = '\n'
        · simp only [hc, if_true, Option.some.injEq] at hr
          simp only [List.length_cons]
          omega
        · simp only [hc, if_false] at hr
          have := ih (i + 1) r hr
          simp only [List.length_cons]
          omega
    have h2' : o1 < st.source.length := (List.getElem?_eq_some_iff.mp h2).1
    obtain ⟨nl', hnl'⟩ := Option.ne_none_iff_exists'.mp hnl
    have h5' := hfind _ _ _ hnl'
    simp only [List.length_drop] at h5'
    have ho1 : o1 = st.offset + (wsChunk st.source st.offset).length := rfl
    rw [ho1] at h2' h5' hnl'
    simp only [setComment, hnl', Option.get_some]
    split <;> simp <;> omega
  · have hfind : ∀ (l : List Char) (i r : Nat), findStarSlash l i = some r → i + 1 ≤ r ∧ r < i + l.length := by
      intro l
      induction l with
      | nil => intro i r hr; simp [findStarSlash] at hr
      | cons a rest ih =>
        intro i r hr
        cases rest with
        | nil => simp [findStarSlash] at hr
        | cons b rest2 =>
          simp only [findStarSlash] at hr
          by_cases hab : a = '*' && b = '/'
          · rw [if_pos hab] at hr
            simp only [Option.some.injEq] at hr
            simp only [List.length_cons]
            omega
          · rw [if_neg hab] at hr
            have := ih (i + 1) r hr
            simp only [List.length_cons] at this ⊢
            omega
    have h2' : o1 < st.source.length := (List.getElem?_eq_some_iff.mp h2).1
    obtain ⟨p', hp'⟩ := Option.ne_none_iff_exists'.mp hbe
    have h6' := hfind _ _ _ hp'
    simp only [List.length_drop] at h6'
    have ho1 : o1 = st.offset + (wsChunk st.source st.offset).length := rfl
    rw [ho1] at h2' h6' hp'
    simp only [setComment, hp', Option.get_some]
    split <;> simp <;> omega

/-- The token-extraction scan below the loop of `next()`:
`while (end < length && !delimRe.test(charAt(end))) ++end;` starting from
`e`. -/
def tokenEnd (s : List Char) (e : Nat) : Nat :=
  e + ((s.drop e).takeWhile (fun c => !isDelimChar c)).length

/-- The token extraction of `next()` after the scanning loop stopped at a
non-whitespace, non-comment position: one character when it is a delimiter,
else the maximal run of non-delimiters; the token becomes the pending
string delimiter when it is a lone quote.  When the cursor is beyond the
end (not reachable from `tokenize`), `charAt` gives `""`, `delimRe` does
not match it, the `while` loop does not run, and the extracted token is the
empty string, exactly as in JS. -/
def extractToken (st : TokState) : List Char × TokState :=
  let off := st.offset
  let isD := match st.source[off]? with
    | some c => isDelimChar c
    | none => false
  let e := if isD then off + 1 else tokenEnd st.source (off + 1)
  let token := consumed st.source off e
  let delim' := if token = ['"'] then some '"'
    else if token = ['\''] then some '\''
    else st.stringDelim
  (token, { st with offset := e, stringDelim := delim' })

/-- One body-scan step of the string regexes
`stringDoubleRe = /(?:"([^"\\]*(?:\\.[^"\\]*)*)")/g` (and the single-quote
twin): after the opening quote, a body character that is neither the quote
nor a backslash is consumed; a backslash must be followed by a character
that `.` matches (not a line terminator, not end of input) and both are
consumed; the first unescaped quote closes the match.  Returns the absolute
index of the closing quote, `j` being the absolute index of the list head;
`none` when no match starts at this quote. -/
def scanBodyR (D : Char) : List Char → Nat → Option Nat
  | [], _ => none
  | c :: rest, j =>
    if c = D then some j
    else if c = '\\' then
      match rest with
      | [] => none
      | c2 :: rest2 => if isLineTerm c2 then none else scanBodyR D rest2 (j + 2)
    else scanBodyR D rest (j + 1)

/-- The search of `re.exec(source)` for a global regex: try each start
position from `lastIndex` on; a match starts at the first position holding
the quote `D` from which a full body-and-closing-quote parse succeeds.
Returns the start index and the index of the closing quote. -/
def execStringR (D : Char) : List Char → Nat → Option (Nat × Nat)
  | [], _ => none
  | c :: rest, i =>
    if c = D then
      match scanBodyR D rest (i + 1) with
      | some k => some (i, k)
      | none => execStringR D rest (i + 1)
    else execStringR D rest (i + 1)

/-- Run the string regex search over the source starting at index `i`
(the regex `lastIndex`). -/
def execString (D : Char) (s : List Char) (i : Nat) : Option (Nat × Nat) :=
  execStringR D (s.drop i) i

/-- The source function `readString()`: pick the regex after the pending
delimiter (`stringSingleRe` for `'`, `stringDoubleRe` otherwise), run it
from `offset - 1` (JS clamps a negative `lastIndex` to 0, as Nat
subtraction does), throw `illegal("string")` on no match; on a match move
`offset` past the closing quote (`re.lastIndex`), push the pending
delimiter onto the stack, clear it, and return the unescaped body
(the captured group, the span between the quotes of the match). -/
def readString (st : TokState) (D : Char) : Except TokErr (List Char × TokState) :=
  let Q := if D = '\'' then '\'' else '"'
  match execString Q st.source (st.offset - 1) with
  | none => .error (.illegalString st.line)
  | some (i0, k) =>
    .ok (unescape (consumed st.source (i0 + 1) k),
      { st with offset := k + 1, stack := st.stack ++ [[D]], stringDelim := none })

/-- The source function `next()`: pushed-back tokens first (FIFO via
`stack.shift()`), then the `readString` delegation when a string delimiter
is pending, then the scanning loop and token extraction.  `none` is the
`null` end-of-input result. -/
def next (st : TokState) : Except TokErr (Option (List Char) × TokState) :=
  match st.stack with
  | t :: rest => .ok (some t, { st with stack := rest })
  | [] =>
    match st.stringDelim with
    | some D =>
      match readString st D with
      | .error e => .error e
      | .ok (tok, st') => .ok (some tok, st')
    | none =>
      match scanSkip st with
      | .error e => .error e
      | .ok (.eof st') => .ok (none, st')
      | .ok (.slash st') => .ok (some ['/'], st')
      | .ok (.tokenAt st') =>
        let p := extractToken st'
        .ok (some p.1, p.2)

/-- The source function `push(token)`: append to the stack (consumed from
the front by `next`, so pushback order is FIFO). -/
def push (st : TokState) (token : List Char) : TokState :=
  { st with stack := st.stack ++ [token] }

/-- The source function `peek()`: when the stack is empty, call `next`,
return `null` on end of input, else push the token and return `stack[0]`
(which, when `next` itself pushed a token, is not the token just read). -/
def peek (st : TokState) : Except TokErr (Option (List Char) × TokState) :=
  match st.stack with
  | t :: _ => .ok (some t, st)
  | [] =>
    match next st with
    | .error e => .error e
    | .ok (none, st') => .ok (none, st')
    | .ok (some tok, st') =>
      let st2 := push st' tok
      .ok (st2.stack.head?, st2)

/-- The source function `skip(expected, optional)`: peek, consume and
report success on equality; otherwise throw
`illegal("token '" + actual + "', '" + expected + "' expected")` when not
optional, report failure when optional. -/
def skip (st : TokState) (expected : List Char) (optional : Bool) :
    Except TokErr (Bool × TokState) :=
  match peek st with
  | .error e => .error e
  | .ok (actual, st1) =>
    if actual = some expected then
      match next st1 with
      | .error e => .error e
      | .ok (_, st2) => .ok (true, st2)
    else if optional then .ok (false, st1)
    else .error (.illegalToken actual expected st1.line)

/-- JS truthiness of `commentText` composed with the `X || null` pattern:
a `null` or empty text gives `null`, a non-empty text gives itself. -/
def truthyText : Option (List Char) → Option (List Char)
  | some t => if t = [] then none else some t
  | none => none

/-- The clearing of the comment slot performed by `cmnt` on a non-null
result: `commentType = commentText = null; commentLine = 0`. -/
def clearComment (st : TokState) : TokState :=
  { st with commentType := none, commentText := none, commentLine := 0 }

/-- The source function `cmnt(trailingLine)`.  Without an argument the
result is `commentLine === line - 1 && commentText || null` (the line
comparison is over JS numbers, hence the `Int` cast).  With an argument, a
falsy `commentText` first forces a `peek()`, then the result is
`commentLine === trailingLine && commentType === "/" && commentText || null`.
A truthy result clears the comment slot. -/
def cmnt (st : TokState) (trailingLine : Option Nat) :
    Except TokErr (Option (List Char) × TokState) :=
  match trailingLine with
  | none =>
    let ret := if (st.commentLine : Int) = (st.line : Int) - 1 then truthyText st.commentText
      else none
    .ok (ret, if ret.isSome then clearComment st else st)
  | some tl =>
    match (if (truthyText st.commentText).isSome then .ok ((none : Option (List Char)), st)
      else peek st) with
    | .error e => .error e
    | .ok (_, st1) =>
      let ret := if st1.commentLine = tl ∧ st1.commentType = some '/' then truthyText st1.commentText
        else none
      .ok (ret, if ret.isSome then clearComment st1 else st1)

/-- The current line number, the accessor `line()` of the handle. -/
def lineOf (st : TokState) : Nat := st.line

/-- The first `n` results of repeated `next()` calls. -/
def tokensN : Nat → TokState → Except TokErr (List (Option (List Char)))
  | 0, _ => .ok []
  | n + 1, st =>
    match next st with
    | .error e => .error e
    | .ok (t, st') =>
      match tokensN n st' with
      | .error e => .error e
      | .ok ts => .ok (t :: ts)

/-! List-level helper lemmas used to reason about the scanner. -/

theorem takeWhile_length_le (p : Char → Bool) (l : List Char) :
    (l.takeWhile p).length ≤ l.length := by
  induction l with
  | nil => simp
  | cons a rest ih =>
    by_cases hp : p a
    · simp only [List.takeWhile_cons, hp, if_true, List.length_cons]
      omega
    · simp [List.takeWhile_cons, hp]

theorem takeWhile_eq_take (p : Char → Bool) (l : List Char) :
    l.takeWhile p = l.take (l.takeWhile p).length := by
  induction l with
  | nil => simp
  | cons a rest ih =>
    by_cases hp : p a
    · simp only [List.takeWhile_cons, hp, if_true, List.length_cons, List.take_succ_cons,
        List.cons.injEq, true_and]
      exact ih
    · simp [List.takeWhile_cons, hp]

theorem takeWhile_stop (p : Char → Bool) (l : List Char) (c : Char)
    (h : l[(l.takeWhile p).length]? = some c) : p c = false := by
  induction l with
  | nil => simp at h
  | cons a rest ih =>
    by_cases hp : p a
    · simp only [List.takeWhile_cons, hp, if_true, List.length_cons,
        List.getElem?_cons_succ] at h
      exact ih h
    · rw [List.takeWhile_cons, if_neg hp] at h
      simp only [List.length_nil, List.getElem?_cons_zero, Option.some.injEq] at h
      subst h
      exact Bool.eq_false_iff.mpr hp

theorem takeWhile_mem (p : Char → Bool) (l : List Char) (c : Char)
    (h : c ∈ l.takeWhile p) : p c = true := by
  induction l with
  | nil => simp at h
  | cons a rest ih =>
    by_cases hp : p a
    · simp only [List.takeWhile_cons, hp, if_true, List.mem_cons] at h
      cases h with
      | inl he => exact he ▸ hp
      | inr hm => exact ih hm
    · rw [List.takeWhile_cons, if_neg hp] at h
      simp at h

theorem consumed_self (s : List Char) (a : Nat) : consumed s a a = [] := by
  simp [consumed, List.drop_take]

theorem consumed_drop_take (s : List Char) (a n : Nat) :
    consumed s a (a + n) = (s.drop a).take n := by
  simp [consumed, List.drop_take]

theorem consumed_append (s : List Char) (a b c : Nat) (hab : a ≤ b) (hbc : b ≤ c)
    (hbl : b ≤ s.length) : consumed s a c = consumed s a b ++ consumed s b c := by
  unfold consumed
  have h1 : s.take c = s.take b ++ (s.take c).drop b := by
    conv_lhs => rw [← List.take_append_drop b (s.take c)]
    rw [List.take_take, Nat.min_eq_left hbc]
  conv_lhs => rw [h1]
  rw [List.drop_append_of_le_length]
  simp only [List.length_take]
  omega

theorem consumed_singleton (s : List Char) (a : Nat) (c : Char) (h : s[a]? = some c) :
    consumed s a (a + 1) = [c] := by
  rw [consumed_drop_take]
  have h0 : (s.drop a)[0]? = some c := by
    rw [List.getElem?_drop]
    simpa using h
  cases hd : s.drop a with
  | nil => rw [hd] at h0; simp at h0
  | cons x xs =>
    rw [hd] at h0
    simp only [List.getElem?_cons_zero, Option.some.injEq] at h0
    simp [h0]

theorem consumed_of_length_le (s : List Char) (a b : Nat) (hb : s.length ≤ b) :
    consumed s a b = s.drop a := by
  unfold consumed
  rw [List.take_of_length_le hb]

theorem countNL_append (l1 l2 : List Char) :
    countNL (l1 ++ l2) = countNL l1 + countNL l2 := by
  simp [countNL, List.count_append]

theorem countNL_eq_zero (l : List Char) (h : '\n' ∉ l) : countNL l = 0 := by
  simp [countNL, List.count_eq_zero, h]

theorem countNL_no_mem (l : List Char) (h : ∀ c ∈ l, c ≠ '\n') : countNL l = 0 := by
  refine countNL_eq_zero l fun hm => ?_
  exact (h _ hm) rfl

theorem findNL_bound : ∀ (l : List Char) (i r : Nat),
    findNL l i = some r → i ≤ r ∧ r < i + l.length := by
  intro l
  induction l with
  | nil => intro i r hr; simp [findNL] at hr
  | cons c rest ih =>
    intro i r hr
    simp only [findNL] at hr
    by_cases hc : c = '\n'
    · simp only [hc, if_true, Option.some.injEq] at hr
      simp only [List.length_cons]
      omega
    · simp only [hc, if_false] at hr
      have := ih (i + 1) r hr
      simp only [List.length_cons]
      omega

theorem findNL_elem : ∀ (l : List Char) (i r : Nat),
    findNL l i = some r → l[r - i]? = some '\n' := by
  intro l
  induction l with
  | nil => intro i r hr; simp [findNL] at hr
  | cons c rest ih =>
    intro i r hr
    simp only [findNL] at hr
    by_cases hc : c = '\n'
    · simp only [hc, if_true, Option.some.injEq] at hr
      subst hr
      simp [hc]
    · simp only [hc, if_false] at hr
      have hb := findNL_bound rest (i + 1) r hr
      have he := ih (i + 1) r hr
      have harith : r - i = (r - (i + 1)) + 1 := by omega
      rw [harith, List.getElem?_cons_succ]
      exact he

theorem findNL_before : ∀ (l : List Char) (i r j : Nat),
    findNL l i = some r → j < r - i → l[j]? ≠ some '\n' := by
  intro l
  induction l with
  | nil => intro i r j hr; simp [findNL] at hr
  | cons c rest ih =>
    intro i r j hr hj
    simp only [findNL] at hr
    by_cases hc : c = '\n'
    · simp only [hc, if_true, Option.some.injEq] at hr
      omega
    · simp only [hc, if_false] at hr
      cases j with
      | zero =>
        simp only [List.getElem?_cons_zero, ne_eq, Option.some.injEq]
        exact fun hcc => hc hcc
      | succ j' =>
        have hb := findNL_bound rest (i + 1) r hr
        rw [List.getElem?_cons_succ]
        exact ih (i + 1) r j' hr (by omega)

theorem findNL_none : ∀ (l : List Char) (i : Nat), findNL l i = none → '\n' ∉ l := by
  intro l
  induction l with
  | nil => intro i _; simp
  | cons c rest ih =>
    intro i hr
    simp only [findNL] at hr
    by_cases hc : c = '\n'
    · simp [hc] at hr
    · simp only [hc, if_false] at hr
      simp only [List.mem_cons, not_or]
      exact ⟨fun hcc => hc hcc.symm, ih (i + 1) hr⟩

theorem findStarSlash_bound : ∀ (l : List Char) (i r : Nat),
    findStarSlash l i = some r → i + 1 ≤ r ∧ r < i + l.length := by
  intro l
  induction l with
  | nil => intro i r hr; simp [findStarSlash] at hr
  | cons a rest ih =>
    intro i r hr
    cases rest with
    | nil => simp [findStarSlash] at hr
    | cons b rest2 =>
      simp only [findStarSlash] at hr
      by_cases hab : a = '*' && b = '/'
      · rw [if_pos hab] at hr
        simp only [Option.some.injEq] at hr
        simp only [List.length_cons]
        omega
      · rw [if_neg hab] at hr
        have := ih (i + 1) r hr
        simp only [List.length_cons] at this ⊢
        omega

theorem findStarSlash_elem : ∀ (l : List Char) (i r : Nat),
    findStarSlash l i = some r → l[r - i]? = some '/' := by
  intro l
  induction l with
  | nil => intro i r hr; simp [findStarSlash] at hr
  | cons a rest ih =>
    intro i r hr
    cases rest with
    | nil => simp [findStarSlash] at hr
    | cons b rest2 =>
      simp only [findStarSlash] at hr
      by_cases hab : a = '*' && b = '/'
      · rw [if_pos hab] at hr
        simp only [Option.some.injEq] at hr
        subst hr
        have hb : b = '/' := by
          have := (Bool.and_eq_true _ _).mp hab
          simpa using this.2
        simp [hb]
      · rw [if_neg hab] at hr
        have hbd := findStarSlash_bound (b :: rest2) (i + 1) r hr
        have he := ih (i + 1) r hr
        have harith : r - i = (r - (i + 1)) + 1 := by omega
        rw [harith, List.getElem?_cons_succ]
        exact he

theorem wsChunk_length_le (s : List Char) (off : Nat) :
    (wsChunk s off).length ≤ s.length - off := by
  have := takeWhile_length_le isJsSpace (s.drop off)
  simpa [wsChunk] using this

theorem wsChunk_consumed (s : List Char) (off : Nat) :
    consumed s off (off + (wsChunk s off).length) = wsChunk s off := by
  rw [consumed_drop_take]
  exact (takeWhile_eq_take isJsSpace (s.drop off)).symm

theorem wsChunk_stop (s : List Char) (off : Nat) (c : Char)
    (h : s[off + (wsChunk s off).length]? = some c) : isJsSpace c = false := by
  apply takeWhile_stop isJsSpace (s.drop off) c
  rw [List.getElem?_drop]
  exact h

theorem mem_consumed (s : List Char) (a b : Nat) (c : Char) (h : c ∈ consumed s a b) :
    ∃ j, a ≤ j ∧ j < b ∧ s[j]? = some c := by
  unfold consumed at h
  obtain ⟨i, hgi⟩ := List.mem_iff_getElem?.mp h
  rw [List.getElem?_drop, List.getElem?_take] at hgi
  by_cases hab : a + i < b
  · rw [if_pos hab] at hgi
    exact ⟨a + i, by omega, hab, hgi⟩
  · rw [if_neg hab] at hgi
    exact absurd hgi (by simp)

theorem consumed_no_nl (s : List Char) (a b : Nat)
    (h : ∀ j, a ≤ j → j < b → s[j]? ≠ some '\n') :
    countNL (consumed s a b) = 0 := by
  apply countNL_no_mem
  intro c hc hcc
  subst hcc
  obtain ⟨j, hj1, hj2, hj3⟩ := mem_consumed _ _ _ _ hc
  exact h j hj1 hj2 hj3

/-- Structural description of one successful scanning loop: the source,
stack and pending delimiter are untouched, the cursor only advances, the
line counter grows by exactly the newlines in the consumed span, the
comment slot is either untouched or rewritten by `setComment` with an end
line at or after the entry line (and strictly before the current line for
a line-style comment), an `eof` stop parks the cursor at the end, and a
`tokenAt` stop parks it on a non-whitespace character. -/
theorem scanSkip_spec : ∀ (st : TokState) (stop : ScanStop), scanSkip st = .ok stop →
    (stateOf stop).source = st.source ∧
    (stateOf stop).stack = st.stack ∧
    (stateOf stop).stringDelim = st.stringDelim ∧
    st.offset ≤ (stateOf stop).offset ∧
    (stateOf stop).line = st.line + countNL (consumed st.source st.offset (stateOf stop).offset) ∧
    (((stateOf stop).commentType = st.commentType ∧ (stateOf stop).commentText = st.commentText ∧
        (stateOf stop).commentLine = st.commentLine) ∨
      (st.line ≤ (stateOf stop).commentLine ∧ ((stateOf stop).commentText).isSome = true ∧
        ((stateOf stop).commentType = some '/' → (stateOf stop).commentLine < (stateOf stop).line))) ∧
    (∀ s1, stop = ScanStop.eof s1 → s1.offset = st.source.length) ∧
    (∀ s1 c, stop = ScanStop.tokenAt s1 → s1.source[s1.offset]? = some c →
      isJsSpace c = false) := by
  intro st
  induction st using scanSkip.induct with
  | case1 x hx =>
    intro stop h
    rw [scanSkip] at h
    rw [if_pos hx] at h
    injection h with h
    subst h
    refine ⟨rfl, rfl, rfl, Nat.le_refl _, ?_, Or.inl ⟨rfl, rfl, rfl⟩, ?_, ?_⟩
    · simp only [stateOf]
      rw [consumed_self]
      simp [countNL]
    · intro s1 he
      injection he with he
      subst he
      exact hx
    · intro s1 c he
      simp [stateOf] at he
  | case2 x hx0 ws o1 hx1 =>
    intro stop h
    rw [scanSkip] at h
    simp only [if_neg hx0, if_pos hx1] at h
    injection h with h
    subst h
    refine ⟨rfl, rfl, rfl, Nat.le_add_right _ _, ?_, Or.inl ⟨rfl, rfl, rfl⟩, ?_, ?_⟩
    · simp only [stateOf]
      rw [wsChunk_consumed]
      try rfl
    · intro s1 he
      injection he with he
      subst he
      exact hx1
    · intro s1 c he
      simp [stateOf] at he
  | case3 x hx0 ws o1 hneq hsl hne1 =>
    intro stop h
    rw [scanSkip] at h
    simp only [if_neg hx0, if_neg hneq, dif_pos hsl, if_pos hne1] at h
    exact Except.noConfusion h
  | case4 x hx0 ws o1 hneq hsl hne1 hlc hsl2 =>
    intro stop h
    rw [scanSkip] at h
    simp only [if_neg hx0, if_neg hneq, dif_pos hsl, if_neg hne1, hsl2, hlc, reduceIte,
      dif_pos] at h
    injection h with h
    subst h
    have hlen : o1 < x.source.length := (List.getElem?_eq_some_iff.mp hsl).1
    have hlen2 : o1 + 1 < x.source.length := (List.getElem?_eq_some_iff.mp hsl2).1
    have hnone : '\n' ∉ x.source.drop (o1 + 2) := findNL_none _ _ hlc
    refine ⟨rfl, rfl, rfl, by simp only [stateOf]; omega, ?_, Or.inl ⟨rfl, rfl, rfl⟩, ?_, ?_⟩
    · simp only [stateOf]
      have e1 : consumed x.source x.offset x.source.length =
          consumed x.source x.offset o1 ++ consumed x.source o1 x.source.length :=
        consumed_append _ _ _ _ (Nat.le_add_right _ _) (by omega) (by omega)
      have e2 : consumed x.source o1 x.source.length =
          consumed x.source o1 (o1 + 2) ++ consumed x.source (o1 + 2) x.source.length :=
        consumed_append _ _ _ _ (by omega) (by omega) (by omega)
      have c2 : countNL (consumed x.source o1 (o1 + 2)) = 0 := by
        apply consumed_no_nl
        intro j hj1 hj2
        have hj : j = o1 ∨ j = o1 + 1 := by omega
        cases hj with
        | inl hj => subst hj; rw [hsl]; simp
        | inr hj => subst hj; rw [hsl2]; simp
      have c3 : countNL (consumed x.source (o1 + 2) x.source.length) = 0 := by
        rw [consumed_of_length_le _ _ _ (Nat.le_refl _)]
        exact countNL_eq_zero _ hnone
      rw [e1, countNL_append, e2, countNL_append, c2, c3, wsChunk_consumed]
      try simp only [Nat.zero_add, Nat.add_zero]
      try rfl
      try omega
    · intro s1 he
      injection he with he
      subst he
      rfl
    · intro s1 c he
      simp [stateOf] at he
  | case5 x hx0 ws o1 l1 hneq st1 hsl hne1 isC hnl nl st2 st3 hsl2 IH =>
    intro stop h
    rw [scanSkip] at h
    simp only [if_neg hx0, if_neg hneq, dif_pos hsl, if_neg hne1, hsl2, reduceIte,
      dif_neg hnl] at h
    have hsome : lineCommentEnd x.source (o1 + 1) = some nl := (Option.some_get _).symm
    have hlen : o1 < x.source.length := (List.getElem?_eq_some_iff.mp hsl).1
    have hlen2 : o1 + 1 < x.source.length := (List.getElem?_eq_some_iff.mp hsl2).1
    have hb := findNL_bound _ _ _ hsome
    simp only [List.length_drop] at hb
    have hnlch : x.source[nl]? = some '\n' := by
      have he := findNL_elem _ _ _ hsome
      rw [List.getElem?_drop] at he
      have harith : o1 + 1 + 1 + (nl - (o1 + 1 + 1)) = nl := by omega
      rw [harith] at he
      exact he
    have hbefore : ∀ j, o1 + 2 ≤ j → j < nl → x.source[j]? ≠ some '\n' := by
      intro j hj1 hj2
      have hbf := findNL_before _ _ _ (j - (o1 + 1 + 1)) hsome (by omega)
      rw [List.getElem?_drop] at hbf
      have harith : o1 + 1 + 1 + (j - (o1 + 1 + 1)) = j := by omega
      rw [harith] at hbf
      exact hbf
    have h3src : st3.source = x.source := by
      unfold_let st3 st2 st1
      simp only [setComment]
      split <;> rfl
    have h3stack : st3.stack = x.stack := by
      unfold_let st3 st2 st1
      simp only [setComment]
      split <;> rfl
    have h3delim : st3.stringDelim = x.stringDelim := by
      unfold_let st3 st2 st1
      simp only [setComment]
      split <;> rfl
    have h3off : st3.offset = nl + 1 := by
      unfold_let st3 st2 st1
      simp only [setComment]
      split <;> rfl
    have h3line : st3.line = l1 := by
      unfold_let st3 st2 st1
      simp only [setComment]
      split <;> rfl
    obtain ⟨i1, i2, i3, i4, i5, i6, i7, i8⟩ := IH stop h
    simp only [h3src, h3stack, h3delim, h3off, h3line] at i1 i2 i3 i4 i5 i6 i7 i8
    have hcount : countNL (consumed x.source x.offset (nl + 1)) = countNL ws + 1 := by
      have e1 : consumed x.source x.offset (nl + 1) =
          consumed x.source x.offset o1 ++ consumed x.source o1 (nl + 1) :=
        consumed_append _ _ _ _ (Nat.le_add_right _ _) (by omega) (by omega)
      have e2 : consumed x.source o1 (nl + 1) =
          consumed x.source o1 (o1 + 2) ++ consumed x.source (o1 + 2) (nl + 1) :=
        consumed_append _ _ _ _ (by omega) (by omega) (by omega)
      have e3 : consumed x.source (o1 + 2) (nl + 1) =
          consumed x.source (o1 + 2) nl ++ consumed x.source nl (nl + 1) :=
        consumed_append _ _ _ _ (by omega) (by omega) (by omega)
      have c1 : countNL (consumed x.source o1 (o1 + 2)) = 0 := by
        apply consumed_no_nl
        intro j hj1 hj2
        have hj : j = o1 ∨ j = o1 + 1 := by omega
        cases hj with
        | inl hj => subst hj; rw [hsl]; simp
        | inr hj => subst hj; rw [hsl2]; simp
      have c2 : countNL (consumed x.source (o1 + 2) nl) = 0 :=
        consumed_no_nl _ _ _ hbefore
      have c3 : countNL (consumed x.source nl (nl + 1)) = 1 := by
        rw [consumed_singleton _ _ _ hnlch]
        decide
      rw [e1, countNL_append, e2, countNL_append, e3, countNL_append, c1, c2, c3,
        wsChunk_consumed]
      try simp only [Nat.zero_add, Nat.add_zero]
      try rfl
      try omega
    refine ⟨i1, i2, i3, by omega, ?_, ?_, i7, i8⟩
    · rw [i5]
      have esplit : consumed x.source x.offset (stateOf stop).offset =
          consumed x.source x.offset (nl + 1) ++
            consumed x.source (nl + 1) (stateOf stop).offset :=
        consumed_append _ _ _ _ (by omega) i4 (by omega)
      rw [esplit, countNL_append, hcount]
      unfold_let l1
      omega
    · by_cases hisC : x.source[o1 + 2]? = some '/'
      · have h3cline : st3.commentLine = l1 := by
          unfold_let st3 st2 st1 isC
          rw [dif_pos hisC]
          rfl
        have h3text : (st3.commentText).isSome = true := by
          unfold_let st3 st2 st1 isC
          rw [dif_pos hisC]
          rfl
        cases i6 with
        | inl hun =>
          refine Or.inr ⟨?_, ?_, ?_⟩
          · rw [hun.2.2, h3cline]
            unfold_let l1
            omega
          · rw [hun.2.1, h3text]
          · intro _
            rw [hun.2.2, h3cline, i5]
            unfold_let l1
            omega
        | inr hset =>
          refine Or.inr ⟨?_, hset.2.1, hset.2.2⟩
          have hcl : l1 + 1 ≤ (stateOf stop).commentLine := hset.1
          unfold_let l1 at hcl
          omega
      · have h3slot : st3.commentType = x.commentType ∧ st3.commentText = x.commentText ∧
            st3.commentLine = x.commentLine := by
          unfold_let st3 st2 st1 isC
          rw [dif_neg hisC]
          exact ⟨rfl, rfl, rfl⟩
        cases i6 with
        | inl hun =>
          exact Or.inl ⟨hun.1.trans h3slot.1, hun.2.1.trans h3slot.2.1,
            hun.2.2.trans h3slot.2.2⟩
        | inr hset =>
          refine Or.inr ⟨?_, hset.2.1, hset.2.2⟩
          have hcl : l1 + 1 ≤ (stateOf stop).commentLine := hset.1
          unfold_let l1 at hcl
          omega
  | case6 x hx0 ws o1 hneq hsl hne1 hbe hst hns =>
    intro stop h
    rw [scanSkip] at h
    simp only [if_neg hx0, if_neg hneq, dif_pos hsl, if_neg hne1, hst, hbe, reduceIte,
      if_neg hns, dif_pos] at h
    exact Except.noConfusion h
  | case7 x hx0 ws o1 l1 hneq st1 hsl hne1 isC hbe p l2 st2 st3 hst hns IH =>
    intro stop h
    rw [scanSkip] at h
    simp only [if_neg hx0, if_neg hneq, dif_pos hsl, if_neg hne1, hst, reduceIte,
      if_neg hns, dif_neg hbe] at h
    have hsome : blockEnd x.source (o1 + 1) = some p := (Option.some_get _).symm
    have hlen : o1 < x.source.length := (List.getElem?_eq_some_iff.mp hsl).1
    have hlen2 : o1 + 1 < x.source.length := (List.getElem?_eq_some_iff.mp hst).1
    have hb := findStarSlash_bound _ _ _ hsome
    simp only [List.length_drop] at hb
    have hpch : x.source[p]? = some '/' := by
      have he := findStarSlash_elem _ _ _ hsome
      rw [List.getElem?_drop] at he
      have harith : o1 + 1 + (p - (o1 + 1)) = p := by omega
      rw [harith] at he
      exact he
    have h3src : st3.source = x.source := by
      unfold_let st3 st2 st1
      simp only [setComment]
      split <;> rfl
    have h3stack : st3.stack = x.stack := by
      unfold_let st3 st2 st1
      simp only [setComment]
      split <;> rfl
    have h3delim : st3.stringDelim = x.stringDelim := by
      unfold_let st3 st2 st1
      simp only [setComment]
      split <;> rfl
    have h3off : st3.offset = p + 1 := by
      unfold_let st3 st2 st1
      simp only [setComment]
      split <;> rfl
    have h3line : st3.line = l2 := by
      unfold_let st3 st2 st1
      simp only [setComment]
      split <;> rfl
    obtain ⟨i1, i2, i3, i4, i5, i6, i7, i8⟩ := IH stop h
    simp only [h3src, h3stack, h3delim, h3off, h3line] at i1 i2 i3 i4 i5 i6 i7 i8
    have hcount : countNL (consumed x.source x.offset (p + 1)) =
        countNL ws + countNL (consumed x.source (o1 + 1) p) := by
      have e1 : consumed x.source x.offset (p + 1) =
          consumed x.source x.offset o1 ++ consumed x.source o1 (p + 1) :=
        consumed_append _ _ _ _ (Nat.le_add_right _ _) (by omega) (by omega)
      have e2 : consumed x.source o1 (p + 1) =
          consumed x.source o1 (o1 + 1) ++ consumed x.source (o1 + 1) (p + 1) :=
        consumed_append _ _ _ _ (by omega) (by omega) (by omega)
      have e3 : consumed x.source (o1 + 1) (p + 1) =
          consumed x.source (o1 + 1) p ++ consumed x.source p (p + 1) :=
        consumed_append _ _ _ _ (by omega) (by omega) (by omega)
      have c1 : countNL (consumed x.source o1 (o1 + 1)) = 0 := by
        rw [consumed_singleton _ _ _ hsl]
        decide
      have c3 : countNL (consumed x.source p (p + 1)) = 0 := by
        rw [consumed_singleton _ _ _ hpch]
        decide
      rw [e1, countNL_append, e2, countNL_append, e3, countNL_append, c1, c3,
        wsChunk_consumed]
      try simp only [Nat.zero_add, Nat.add_zero]
      try rfl
      try omega
    refine ⟨i1, i2, i3, by omega, ?_, ?_, i7, i8⟩
    · rw [i5]
      have esplit : consumed x.source x.offset (stateOf stop).offset =
          consumed x.source x.offset (p + 1) ++
            consumed x.source (p + 1) (stateOf stop).offset :=
        consumed_append _ _ _ _ (by omega) i4 (by omega)
      rw [esplit, countNL_append, hcount]
      unfold_let l2 l1
      omega
    · by_cases hisC : x.source[o1 + 2]? = some '*'
      · have h3type : st3.commentType = x.source[o1 + 2]? := by
          unfold_let st3 st2 st1 isC
          rw [dif_pos hisC]
          rfl
        have h3cline : st3.commentLine = l2 := by
          unfold_let st3 st2 st1 isC
          rw [dif_pos hisC]
          rfl
        have h3text : (st3.commentText).isSome = true := by
          unfold_let st3 st2 st1 isC
          rw [dif_pos hisC]
          rfl
        cases i6 with
        | inl hun =>
          refine Or.inr ⟨?_, ?_, ?_⟩
          · rw [hun.2.2, h3cline]
            unfold_let l2 l1
            omega
          · rw [hun.2.1, h3text]
          · intro htype
            rw [hun.1, h3type, hisC] at htype
            exact absurd (Option.some.inj htype) (by decide)
        | inr hset =>
          refine Or.inr ⟨?_, hset.2.1, hset.2.2⟩
          have hcl : l2 ≤ (stateOf stop).commentLine := hset.1
          unfold_let l2 l1 at hcl
          omega
      · have h3slot : st3.commentType = x.commentType ∧ st3.commentText = x.commentText ∧
            st3.commentLine = x.commentLine := by
          unfold_let st3 st2 st1 isC
          rw [dif_neg hisC]
          exact ⟨rfl, rfl, rfl⟩
        cases i6 with
        | inl hun =>
          exact Or.inl ⟨hun.1.trans h3slot.1, hun.2.1.trans h3slot.2.1,
            hun.2.2.trans h3slot.2.2⟩
        | inr hset =>
          refine Or.inr ⟨?_, hset.2.1, hset.2.2⟩
          have hcl : l2 ≤ (stateOf stop).commentLine := hset.1
          unfold_let l2 l1 at hcl
          omega
  | case8 x hx0 ws o1 hneq hsl hne1 c hc hc1 hc2 =>
    intro stop h
    rw [scanSkip] at h
    simp only [if_neg hx0, if_neg hneq, dif_pos hsl, if_neg hne1, hc, if_neg hc1,
      if_neg hc2] at h
    injection h with h
    subst h
    have hlen : o1 < x.source.length := (List.getElem?_eq_some_iff.mp hsl).1
    refine ⟨rfl, rfl, rfl, by simp only [stateOf]; omega, ?_, Or.inl ⟨rfl, rfl, rfl⟩, ?_, ?_⟩
    · simp only [stateOf]
      have e1 : consumed x.source x.offset (o1 + 1) =
          consumed x.source x.offset o1 ++ consumed x.source o1 (o1 + 1) :=
        consumed_append _ _ _ _ (Nat.le_add_right _ _) (by omega) (by omega)
      have c1 : countNL (consumed x.source o1 (o1 + 1)) = 0 := by
        rw [consumed_singleton _ _ _ hsl]
        decide
      rw [e1, countNL_append, c1, wsChunk_consumed]
      try simp only [Nat.zero_add, Nat.add_zero]
      try rfl
      try omega
    · intro s1 he
      simp [stateOf] at he
    · intro s1 c' he
      simp [stateOf] at he
  | case9 x hx0 ws o1 hneq hsl hne1 hc =>
    intro stop h
    rw [scanSkip] at h
    simp only [if_neg hx0, if_neg hneq, dif_pos hsl, if_neg hne1, hc] at h
    injection h with h
    subst h
    have hlen : o1 < x.source.length := (List.getElem?_eq_some_iff.mp hsl).1
    refine ⟨rfl, rfl, rfl, by simp only [stateOf]; omega, ?_, Or.inl ⟨rfl, rfl, rfl⟩, ?_, ?_⟩
    · simp only [stateOf]
      have e1 : consumed x.source x.offset (o1 + 1) =
          consumed x.source x.offset o1 ++ consumed x.source o1 (o1 + 1) :=
        consumed_append _ _ _ _ (Nat.le_add_right _ _) (by omega) (by omega)
      have c1 : countNL (consumed x.source o1 (o1 + 1)) = 0 := by
        rw [consumed_singleton _ _ _ hsl]
        decide
      rw [e1, countNL_append, c1, wsChunk_consumed]
      try simp only [Nat.zero_add, Nat.add_zero]
      try rfl
      try omega
    · intro s1 he
      simp [stateOf] at he
    · intro s1 c' he
      simp [stateOf] at he
  | case10 x hx0 ws o1 hneq hns =>
    intro stop h
    rw [scanSkip] at h
    simp only [if_neg hx0, if_neg hneq, dif_neg hns] at h
    injection h with h
    subst h
    refine ⟨rfl, rfl, rfl, Nat.le_add_right _ _, ?_, Or.inl ⟨rfl, rfl, rfl⟩, ?_, ?_⟩
    · simp only [stateOf]
      rw [wsChunk_consumed]
      try rfl
    · intro s1 he
      simp [stateOf] at he
    · intro s1 c he
      injection he with he
      subst he
      intro hgc
      exact wsChunk_stop _ _ _ hgc

theorem findNL_none_of (l : List Char) (i : Nat) (h : '\n' ∉ l) : findNL l i = none := by
  induction l generalizing i with
  | nil => rfl
  | cons c rest ih =>
    simp only [List.mem_cons, not_or] at h
    have hcne : ¬ c = '\n' := fun hc => h.1 hc.symm
    simp only [findNL, if_neg hcne]
    exact ih (i + 1) h.2

theorem drop_eq_cons (s : List Char) (off : Nat) (c : Char) (h : s[off]? = some c) :
    ∃ rest, s.drop off = c :: rest := by
  have h0 : (s.drop off)[0]? = some c := by
    rw [List.getElem?_drop]
    simpa using h
  cases hd : s.drop off with
  | nil => rw [hd] at h0; simp at h0
  | cons a rest =>
    rw [hd] at h0
    simp only [List.getElem?_cons_zero, Option.some.injEq] at h0
    exact ⟨rest, by rw [h0]⟩

theorem wsChunk_nil_of_nonspace (s : List Char) (off : Nat) (c : Char)
    (h : s[off]? = some c) (hs : isJsSpace c = false) : wsChunk s off = [] := by
  obtain ⟨rest, hd⟩ := drop_eq_cons s off c h
  unfold wsChunk
  rw [hd, List.takeWhile_cons, hs]
  rfl

/-- One scanning step: the cursor is already at the end of the source. -/
theorem scanSkip_at_eof (st : TokState) (h : st.offset = st.source.length) :
    scanSkip st = .ok (.eof st) := by
  rw [scanSkip]
  rw [if_pos h]

/-- One scanning step: a non-whitespace, non-slash character stops the loop
with no cursor movement. -/
theorem scanSkip_token_at (st : TokState) (c : Char) (hc : st.source[st.offset]? = some c)
    (hs : isJsSpace c = false) (hns : c ≠ '/') : scanSkip st = .ok (.tokenAt st) := by
  have hoff : st.offset < st.source.length := (List.getElem?_eq_some_iff.mp hc).1
  have hws : wsChunk st.source st.offset = [] := wsChunk_nil_of_nonspace _ _ _ hc hs
  rw [scanSkip]
  rw [if_neg (by omega)]
  simp only [hws, List.length_nil, Nat.add_zero, countNL, List.count_nil]
  rw [if_neg (by omega)]
  rw [dif_neg (by rw [hc]; exact fun heq => hns (Option.some.inj heq))]

/-- One scanning step on a line comment whose text reaches the end of the
input: `next` will report end of input with the cursor parked at the end,
the line counter not advanced, and the comment slot untouched even when the
comment is a documentation comment. -/
theorem scanSkip_line_comment_eof (st : TokState)
    (h1 : st.source[st.offset]? = some '/')
    (h2 : st.source[st.offset + 1]? = some '/')
    (h3 : '\n' ∉ st.source.drop (st.offset + 2)) :
    scanSkip st = .ok (.eof { st with offset := st.source.length }) := by
  have hoff : st.offset < st.source.length := (List.getElem?_eq_some_iff.mp h1).1
  have hoff2 : st.offset + 1 < st.source.length := (List.getElem?_eq_some_iff.mp h2).1
  have hws : wsChunk st.source st.offset = [] :=
    wsChunk_nil_of_nonspace _ _ _ h1 (by decide)
  have hlc : lineCommentEnd st.source (st.offset + 1) = none :=
    findNL_none_of _ _ h3
  rw [scanSkip]
  rw [if_neg (by omega)]
  simp only [hws, List.length_nil, Nat.add_zero, countNL, List.count_nil]
  rw [if_neg (by omega)]
  rw [dif_pos h1]
  rw [if_neg (by omega)]
  simp only [h2, reduceIte, hlc, dif_pos]

/-- One scanning step on a slash that is the final character of the source:
the `illegal comment` error. -/
theorem scanSkip_slash_at_end (st : TokState)
    (h1 : st.source[st.offset]? = some '/')
    (h2 : st.offset + 1 = st.source.length) :
    scanSkip st = .error (.illegalComment st.line) := by
  have hoff : st.offset < st.source.length := (List.getElem?_eq_some_iff.mp h1).1
  have hws : wsChunk st.source st.offset = [] :=
    wsChunk_nil_of_nonspace _ _ _ h1 (by decide)
  rw [scanSkip]
  rw [if_neg (by omega)]
  simp only [hws, List.length_nil, Nat.add_zero, countNL, List.count_nil]
  rw [if_neg (by omega)]
  rw [dif_pos h1]
  rw [if_pos h2]

/-- One scanning step on a slash followed by a character that opens no
comment: the one-character token `/`. -/
theorem scanSkip_slash_token (st : TokState) (c : Char)
    (h1 : st.source[st.offset]? = some '/')
    (h2 : st.source[st.offset + 1]? = some c) (hc1 : c ≠ '/') (hc2 : c ≠ '*') :
    scanSkip st = .ok (.slash { st with offset := st.offset + 1 }) := by
  have hoff : st.offset < st.source.length := (List.getElem?_eq_some_iff.mp h1).1
  have hoff2 : st.offset + 1 < st.source.length := (List.getElem?_eq_some_iff.mp h2).1
  have hws : wsChunk st.source st.offset = [] :=
    wsChunk_nil_of_nonspace _ _ _ h1 (by decide)
  rw [scanSkip]
  rw [if_neg (by omega)]
  simp only [hws, List.length_nil, Nat.add_zero, countNL, List.count_nil]
  rw [if_neg (by omega)]
  rw [dif_pos h1]
  rw [if_neg (by omega)]
  simp only [h2, if_neg hc1, if_neg hc2]

/-- The offset of the state produced by the token extraction, written out
syntactically. -/
theorem extractToken_snd_offset (st : TokState) :
    (extractToken st).2.offset =
      if (match st.source[st.offset]? with
        | some c => isDelimChar c
        | none => false) = true
      then st.offset + 1 else tokenEnd st.source (st.offset + 1) := rfl

/-- The fields of the state produced by the token extraction, and the fact
that the consumed span holds no newline when extraction starts on a
non-whitespace character. -/
theorem extractToken_spec (st : TokState) :
    (extractToken st).2.source = st.source ∧
    (extractToken st).2.stack = st.stack ∧
    (extractToken st).2.line = st.line ∧
    (extractToken st).2.commentType = st.commentType ∧
    (extractToken st).2.commentText = st.commentText ∧
    (extractToken st).2.commentLine = st.commentLine ∧
    st.offset ≤ (extractToken st).2.offset ∧
    ((∀ c, st.source[st.offset]? = some c → isJsSpace c = false) →
      countNL (consumed st.source st.offset (extractToken st).2.offset) = 0) := by
  refine ⟨rfl, rfl, rfl, rfl, rfl, rfl, ?_, ?_⟩
  · rw [extractToken_snd_offset]
    unfold tokenEnd
    split <;> omega
  · intro hns
    rw [extractToken_snd_offset]
    cases hg : st.source[st.offset]? with
    | none =>
      have hoff : st.source.length ≤ st.offset := by
        by_contra hlt
        rw [List.getElem?_eq_getElem (by omega)] at hg
        simp at hg
      simp only [hg, Bool.false_eq_true, if_false, tokenEnd]
      have hnil : consumed st.source st.offset
          (st.offset + 1 + ((st.source.drop (st.offset + 1)).takeWhile
            (fun c => !isDelimChar c)).length) = [] := by
        unfold consumed
        apply List.drop_eq_nil_of_le
        calc (st.source.take (st.offset + 1 +
              ((st.source.drop (st.offset + 1)).takeWhile
                (fun c => !isDelimChar c)).length)).length ≤ st.source.length := by
              simp [List.length_take]
          _ ≤ st.offset := hoff
      rw [hnil]
      decide
    | some c =>
      have hcs : isJsSpace c = false := hns c hg
      have hcnl : c ≠ '\n' := by
        intro hcc
        subst hcc
        simp [isJsSpace] at hcs
      have hoff : st.offset < st.source.length := (List.getElem?_eq_some_iff.mp hg).1
      have hz1 : countNL [c] = 0 := by
        apply countNL_no_mem
        intro c' hc'
        simp only [List.mem_singleton] at hc'
        subst hc'
        exact hcnl
      by_cases hd : isDelimChar c
      · simp only [hg, hd, reduceIte]
        rw [consumed_singleton _ _ _ hg]
        exact hz1
      · simp only [hg, hd, Bool.false_eq_true, if_false, tokenEnd]
        have esplit : consumed st.source st.offset
            (st.offset + 1 + ((st.source.drop (st.offset + 1)).takeWhile
              (fun c => !isDelimChar c)).length) =
            consumed st.source st.offset (st.offset + 1) ++
              consumed st.source (st.offset + 1)
                (st.offset + 1 + ((st.source.drop (st.offset + 1)).takeWhile
                  (fun c => !isDelimChar c)).length) :=
          consumed_append _ _ _ _ (by omega) (by omega) (by omega)
        rw [esplit, countNL_append, consumed_singleton _ _ _ hg, consumed_drop_take]
        rw [← takeWhile_eq_take]
        have hz2 : countNL ((st.source.drop (st.offset + 1)).takeWhile
            (fun c => !isDelimChar c)) = 0 := by
          apply countNL_no_mem
          intro c' hc' hcc
          subst hcc
          have hmem := takeWhile_mem _ _ _ hc'
          simp [isDelimChar, isJsSpace] at hmem
        omega


theorem next_stack_cons (st : TokState) (t : List Char) (rest : List (List Char))
    (h : st.stack = t :: rest) : next st = .ok (some t, { st with stack := rest }) := by
  unfold next
  rw [h]

theorem next_eof_state (st st' : TokState) (h : next st = .ok (none, st')) :
    st.stack = [] ∧ st.stringDelim = none ∧ st'.stack = [] ∧ st'.stringDelim = none ∧
    st'.offset = st'.source.length ∧ st'.source = st.source := by
  cases hstack : st.stack with
  | cons t rest => simp only [next, hstack] at h; simp at h
  | nil =>
    simp only [next, hstack] at h
    cases hdelim : st.stringDelim with
    | some D =>
      simp only [hdelim] at h
      cases hrs : readString st D with
      | error e => rw [hrs] at h; simp at h
      | ok p => rw [hrs] at h; simp at h
    | none =>
      simp only [hdelim] at h
      cases hscan : scanSkip st with
      | error e => rw [hscan] at h; simp at h
      | ok stop =>
        rw [hscan] at h
        obtain ⟨s1, s2, s3, s4, s5, s6, s7, s8⟩ := scanSkip_spec st stop hscan
        cases stop with
        | eof sx =>
          simp only [Except.ok.injEq, Prod.mk.injEq, true_and] at h
          subst h
          have hx := s7 sx rfl
          refine ⟨rfl, rfl, ?_, ?_, ?_, ?_⟩
          · rw [← hstack]; exact s2
          · rw [← hdelim]; exact s3
          · rw [hx, (show sx.source = st.source from s1)]
          · exact s1
        | slash sx => simp at h
        | tokenAt sx => simp at h

theorem next_eof_stable (st st' : TokState) (h : next st = .ok (none, st')) :
    next st' = .ok (none, st') := by
  obtain ⟨_, _, h3, h4, h5, _⟩ := next_eof_state st st' h
  unfold next
  rw [h3, h4, scanSkip_at_eof st' h5]

theorem next_scan_stack (st : TokState) (r : Option (List Char)) (st' : TokState)
    (hstack : st.stack = []) (hdelim : st.stringDelim = none)
    (h : next st = .ok (r, st')) : st'.stack = [] := by
  simp only [next, hstack, hdelim] at h
  cases hscan : scanSkip st with
  | error e => rw [hscan] at h; simp at h
  | ok stop =>
    rw [hscan] at h
    obtain ⟨s1, s2, s3, s4, s5, s6, s7, s8⟩ := scanSkip_spec st stop hscan
    cases stop with
    | eof sx =>
      simp only [Except.ok.injEq, Prod.mk.injEq] at h
      rw [← h.2, ← hstack]; exact s2
    | slash sx =>
      simp only [Except.ok.injEq, Prod.mk.injEq] at h
      rw [← h.2, ← hstack]
      exact s2
    | tokenAt sx =>
      simp only [Except.ok.injEq, Prod.mk.injEq] at h
      rw [← h.2]
      have hex := (extractToken_spec sx).2.1
      rw [hex, ← hstack]
      exact s2

theorem next_comment_slot (st : TokState) (r : Option (List Char)) (st' : TokState)
    (h : next st = .ok (r, st')) :
    st.line ≤ st'.line ∧
    ((st'.commentType = st.commentType ∧ st'.commentText = st.commentText ∧
        st'.commentLine = st.commentLine) ∨
      (st.line ≤ st'.commentLine ∧ (st'.commentText).isSome = true ∧
        (st'.commentType = some '/' → st'.commentLine < st'.line))) := by
  cases hstack : st.stack with
  | cons t rest =>
    simp only [next, hstack] at h
    simp only [Except.ok.injEq, Prod.mk.injEq] at h
    rw [← h.2]
    exact ⟨Nat.le_refl _, Or.inl ⟨rfl, rfl, rfl⟩⟩
  | nil =>
    simp only [next, hstack] at h
    cases hdelim : st.stringDelim with
    | some D =>
      simp only [hdelim] at h
      cases hrs : readString st D with
      | error e => rw [hrs] at h; simp at h
      | ok p =>
        rw [hrs] at h
        simp only [Except.ok.injEq, Prod.mk.injEq] at h
        simp only [readString] at hrs
        cases hex : execString (if D = '\'' then '\'' else '"') st.source (st.offset - 1) with
        | none => rw [hex] at hrs; simp at hrs
        | some q =>
          rw [hex] at hrs
          obtain ⟨i0, k⟩ := q
          simp only [Except.ok.injEq] at hrs
          rw [← h.2, ← hrs]
          exact ⟨Nat.le_refl _, Or.inl ⟨rfl, rfl, rfl⟩⟩
    | none =>
      simp only [hdelim] at h
      cases hscan : scanSkip st with
      | error e => rw [hscan] at h; simp at h
      | ok stop =>
        rw [hscan] at h
        obtain ⟨s1, s2, s3, s4, s5, s6, s7, s8⟩ := scanSkip_spec st stop hscan
        have hline : st.line ≤ (stateOf stop).line := by omega
        cases stop with
        | eof sx =>
          simp only [Except.ok.injEq, Prod.mk.injEq] at h
          rw [← h.2]
          exact ⟨hline, s6⟩
        | slash sx =>
          simp only [Except.ok.injEq, Prod.mk.injEq] at h
          rw [← h.2]
          exact ⟨hline, s6⟩
        | tokenAt sx =>
          simp only [Except.ok.injEq, Prod.mk.injEq] at h
          rw [← h.2]
          obtain ⟨e1, e2, e3, e4, e5, e6, e7, e8⟩ := extractToken_spec sx
          rw [e3, e4, e5, e6]
          exact ⟨hline, s6⟩

theorem push_fields (st : TokState) (t : List Char) :
    (push st t).source = st.source ∧ (push st t).offset = st.offset ∧
    (push st t).line = st.line ∧ (push st t).commentType = st.commentType ∧
    (push st t).commentText = st.commentText ∧ (push st t).commentLine = st.commentLine ∧
    (push st t).stack = st.stack ++ [t] ∧ (push st t).stringDelim = st.stringDelim :=
  ⟨rfl, rfl, rfl, rfl, rfl, rfl, rfl, rfl⟩

theorem stack_nil_eta (st : TokState) (h : st.stack = []) :
    { st with stack := ([] : List (List Char)) } = st := by
  cases st
  simp only [TokState.mk.injEq, true_and, and_true]
  simp only at h
  rw [h]

theorem peek_stack_cons (st : TokState) (t : List Char) (rest : List (List Char))
    (h : st.stack = t :: rest) : peek st = .ok (some t, st) := by
  unfold peek
  rw [h]

/-- Case analysis of one `peek()` call that returned normally. -/
theorem peek_cases (st : TokState) (r : Option (List Char)) (st' : TokState)
    (h : peek st = .ok (r, st')) :
    (∃ t rest, st.stack = t :: rest ∧ r = some t ∧ st' = st) ∨
    (st.stack = [] ∧ next st = .ok (none, st') ∧ r = none) ∨
    (∃ tok st1, st.stack = [] ∧ next st = .ok (some tok, st1) ∧
      st' = push st1 tok ∧ r = (st1.stack ++ [tok]).head?) := by
  unfold peek at h
  cases hstack : st.stack with
  | cons t rest =>
    rw [hstack] at h
    simp only [Except.ok.injEq, Prod.mk.injEq] at h
    exact Or.inl ⟨t, rest, rfl, h.1.symm, h.2.symm⟩
  | nil =>
    rw [hstack] at h
    cases hnext : next st with
    | error e => rw [hnext] at h; simp at h
    | ok p =>
      rw [hnext] at h
      obtain ⟨tok?, st1⟩ := p
      cases tok? with
      | none =>
        simp only [Except.ok.injEq, Prod.mk.injEq] at h
        exact Or.inr (Or.inl ⟨rfl, by rw [h.2], h.1.symm⟩)
      | some tok =>
        simp only [Except.ok.injEq, Prod.mk.injEq] at h
        refine Or.inr (Or.inr ⟨tok, st1, rfl, rfl, h.2.symm, ?_⟩)
        rw [← h.1]
        rfl

theorem peek_peek (st : TokState) (r : Option (List Char)) (st' : TokState)
    (h : peek st = .ok (r, st')) : peek st' = .ok (r, st') := by
  rcases peek_cases st r st' h with ⟨t, rest, h1, h2, h3⟩ | ⟨h1, h2, h3⟩ |
    ⟨tok, st1, h1, h2, h3, h4⟩
  · subst h3; subst h2
    exact peek_stack_cons _ t rest h1
  · subst h3
    unfold peek
    obtain ⟨_, _, hs3, _, _, _⟩ := next_eof_state st st' h2
    rw [hs3, next_eof_stable st st' h2]
  · subst h3
    cases hq : st1.stack ++ [tok] with
    | nil => simp at hq
    | cons t0 rest0 =>
      have hst' : (push st1 tok).stack = t0 :: rest0 := by
        simp only [push]
        exact hq
      rw [peek_stack_cons (push st1 tok) t0 rest0 hst']
      rw [h4, hq]
      rfl

theorem peek_then_next (st : TokState) (r : Option (List Char)) (st' : TokState)
    (h : peek st = .ok (r, st')) : ∃ st2, next st' = .ok (r, st2) := by
  rcases peek_cases st r st' h with ⟨t, rest, h1, h2, h3⟩ | ⟨h1, h2, h3⟩ |
    ⟨tok, st1, h1, h2, h3, h4⟩
  · subst h3; subst h2
    exact ⟨_, next_stack_cons _ t rest h1⟩
  · subst h3
    exact ⟨st', next_eof_stable st st' h2⟩
  · subst h3
    cases hq : st1.stack ++ [tok] with
    | nil => simp at hq
    | cons t0 rest0 =>
      have hst' : (push st1 tok).stack = t0 :: rest0 := by
        simp only [push]
        exact hq
      refine ⟨{ push st1 tok with stack := rest0 }, ?_⟩
      rw [next_stack_cons (push st1 tok) t0 rest0 hst']
      rw [h4, hq]
      rfl

theorem peek_some_stack (st : TokState) (t : List Char) (st' : TokState)
    (h : peek st = .ok (some t, st')) : ∃ rest, st'.stack = t :: rest := by
  rcases peek_cases st (some t) st' h with ⟨t0, rest, h1, h2, h3⟩ | ⟨h1, h2, h3⟩ |
    ⟨tok, st1, h1, h2, h3, h4⟩
  · subst h3
    injection h2 with h2
    subst h2
    exact ⟨rest, h1⟩
  · simp at h3
  · subst h3
    cases hq : st1.stack ++ [tok] with
    | nil => simp at hq
    | cons t0 rest0 =>
      rw [hq] at h4
      simp only [List.head?_cons, Option.some.injEq] at h4
      subst h4
      exact ⟨rest0, by simp only [push]; exact hq⟩

theorem peek_transparent (st : TokState) (r : Option (List Char)) (st' : TokState)
    (hdelim : st.stringDelim = none) (h : peek st = .ok (r, st')) :
    next st' = next st := by
  rcases peek_cases st r st' h with ⟨t, rest, h1, h2, h3⟩ | ⟨h1, h2, h3⟩ |
    ⟨tok, st1, h1, h2, h3, h4⟩
  · rw [h3]
  · rw [next_eof_stable st st' h2, h2]
  · subst h3
    have hs1 : st1.stack = [] := next_scan_stack st (some tok) st1 h1 hdelim h2
    have hst' : (push st1 tok).stack = tok :: [] := by
      simp only [push, hs1]
      rfl
    rw [next_stack_cons (push st1 tok) tok [] hst']
    rw [h2]
    have : ({ push st1 tok with stack := ([] : List (List Char)) } : TokState) = st1 := by
      have : (push st1 tok) = { st1 with stack := [tok] } := by
        simp only [push, hs1]
        rfl
      rw [this]
      exact stack_nil_eta st1 hs1
    rw [this]

theorem peek_comment_slot (st : TokState) (r : Option (List Char)) (st' : TokState)
    (h : peek st = .ok (r, st')) :
    st.line ≤ st'.line ∧
    ((st'.commentType = st.commentType ∧ st'.commentText = st.commentText ∧
        st'.commentLine = st.commentLine) ∨
      (st.line ≤ st'.commentLine ∧ (st'.commentText).isSome = true ∧
        (st'.commentType = some '/' → st'.commentLine < st'.line))) := by
  rcases peek_cases st r st' h with ⟨t, rest, h1, h2, h3⟩ | ⟨h1, h2, h3⟩ |
    ⟨tok, st1, h1, h2, h3, h4⟩
  · subst h3
    exact ⟨Nat.le_refl _, Or.inl ⟨rfl, rfl, rfl⟩⟩
  · exact next_comment_slot st r st' (by rw [h2, h3])
  · subst h3
    exact next_comment_slot st (some tok) st1 h2


/-- C5 counterexample: the code drops a trailing lone backslash (the
callback replaces the lone-backslash match by the empty capture), while the
claim's reference decoder preserves it; the code also keeps a line
terminator after a backslash while the claim's two-character rule would
drop it. -/
theorem C5_counterexample :
    unescape ['\\'] = [] ∧ unescapeClaim ['\\'] = ['\\'] ∧
    unescape ['\\', '\n'] = ['\n'] ∧ unescapeClaim ['\\', '\n'] = [] ∧
    ¬ (∀ l, unescape l = unescapeClaim l) := by
  refine ⟨by decide, by decide, by decide, by decide, fun hall => ?_⟩
  have := hall ['\\']
  simp [unescape, unescapeClaim] at this

/-- C5 amended: the standalone `unescape` equals the claim's reference
decoder amended in exactly two points: a trailing lone backslash decodes to
the empty string (it is dropped, not preserved), and a backslash directly
before a line terminator is dropped alone with the terminator kept (the
pattern `.` cannot consume it).  All other clauses of the claim (the
0/r/n/t table, backslash-backslash, unknown escapes decoding to the empty
string, other characters passing through) are as stated. -/
theorem C5_theorem (l : List Char) : unescape l = unescapeClaimAmended l := by
  induction l using unescape.induct with
  | case1 => rfl
  | case2 => rfl
  | case3 rest ih =>
    simp only [unescape, unescapeClaimAmended, claimEscapeTable, isLineTerm]
    norm_num <;> exact ih
  | case4 c rest hc hlt ih =>
    simp only [unescape, unescapeClaimAmended, if_neg hc, hlt, if_true, ih]
  | case5 c rest hc hlt ih =>
    simp only [unescape, unescapeClaimAmended, if_neg hc, hlt, if_false, ih,
      unescapeMapF, claimEscapeTable]
  | case6 c rest h1 h2 ih =>
    rw [unescape.eq_4 c rest h1 h2, unescapeClaimAmended.eq_4 c rest h1 h2, ih]

/-- C9: once `next()` has reported end of input, every further `next()`
reports end of input on the very same state: the cursor is parked at the
end, the stack is empty and no string is pending, so the scanner returns
`null` again. -/
theorem C9_theorem (st st' : TokState) (h : next st = .ok (none, st')) :
    next st' = .ok (none, st') :=
  next_eof_stable st st' h

/-- C9 witness: after consuming the single token of the source `x`, the
lexer is at end of input and `next` is stably `none`. -/
theorem C9_witness :
    next ⟨['x'], 1, 1, none, none, 0, [], none⟩ =
      .ok (none, ⟨['x'], 1, 1, none, none, 0, [], none⟩) :=
  C9_theorem _ _ (by
    simp only [next]
    rw [scanSkip_at_eof ⟨['x'], 1, 1, none, none, 0, [], none⟩ rfl])

/-- C8: with `r` the peeked token, a mismatching non-optional `skip` throws
`UnexpectedToken` naming the actual token, the expected token and the
current line; a mismatching optional `skip` returns `false` and a
subsequent `peek` still reports the same token; a matching `skip` consumes
the token and returns `true`. -/
theorem C8_theorem (st : TokState) (expected : List Char) (r : Option (List Char))
    (st1 : TokState) (h : peek st = .ok (r, st1)) :
    (r ≠ some expected →
      skip st expected false = .error (.illegalToken r expected st1.line) ∧
      skip st expected true = .ok (false, st1) ∧
      peek st1 = .ok (r, st1)) ∧
    (r = some expected →
      ∃ st2, next st1 = .ok (r, st2) ∧
        skip st expected false = .ok (true, st2) ∧ skip st expected true = .ok (true, st2)) := by
  constructor
  · intro hne
    refine ⟨?_, ?_, peek_peek _ _ _ h⟩
    · simp only [skip, h]
      rw [if_neg hne]
      simp
    · simp only [skip, h]
      rw [if_neg hne]
      simp
  · intro he
    subst he
    obtain ⟨rest, hst⟩ := peek_some_stack _ _ _ h
    refine ⟨{ st1 with stack := rest }, next_stack_cons _ _ _ hst, ?_, ?_⟩ <;>
    · simp only [skip, h]
      rw [if_pos trivial, next_stack_cons _ _ _ hst]

/-- C8 witness: on the source `;`, skipping an expected `}` throws the
error naming `;`, `}` and line 1 when non-optional, returns `false`
leaving the peeked token in place when optional, and skipping `;` itself
succeeds. -/
theorem C8_witness :
    (skip (tokenize [';']) ['}'] false =
        .error (.illegalToken (some [';']) ['}'] 1) ∧
      skip (tokenize [';']) ['}'] true =
        .ok (false, ⟨[';'], 1, 1, none, none, 0, [[';']], none⟩) ∧
      peek ⟨[';'], 1, 1, none, none, 0, [[';']], none⟩ =
        .ok (some [';'], ⟨[';'], 1, 1, none, none, 0, [[';']], none⟩)) ∧
    (∃ st2, next ⟨[';'], 1, 1, none, none, 0, [[';']], none⟩ = .ok (some [';'], st2) ∧
      skip (tokenize [';']) [';'] false = .ok (true, st2) ∧
      skip (tokenize [';']) [';'] true = .ok (true, st2)) := by
  have hnext : next (⟨[';'], 0, 1, none, none, 0, [], none⟩ : TokState) =
      .ok (some [';'], ⟨[';'], 1, 1, none, none, 0, [], none⟩) := by
    simp only [next]
    rw [scanSkip_token_at ⟨[';'], 0, 1, none, none, 0, [], none⟩ ';' rfl
      (by decide) (by decide)]
    rfl
  have hpeek : peek (tokenize [';']) =
      .ok (some [';'], ⟨[';'], 1, 1, none, none, 0, [[';']], none⟩) := by
    simp only [peek, tokenize]
    rw [hnext]
    rfl
  exact ⟨(C8_theorem (tokenize [';']) ['}'] _ _ hpeek).1 (by decide),
    (C8_theorem (tokenize [';']) [';'] _ _ hpeek).2 rfl⟩

/-- C3 counterexample: with a pending string delimiter, inserting a `peek`
reorders the remaining token stream.  On the source `"a"` the opening quote
has been consumed; without the peek the remaining tokens are the string
body and the replayed closing quote, with the peek they come back in the
opposite order, because `peek` pushes the freshly read body behind the
closing quote that `readString` had already pushed. -/
theorem C3_counterexample :
    next (tokenize ['"', 'a', '"']) =
      .ok (some ['"'], ⟨['"', 'a', '"'], 1, 1, none, none, 0, [], some '"'⟩) ∧
    tokensN 2 (⟨['"', 'a', '"'], 1, 1, none, none, 0, [], some '"'⟩ : TokState) =
      .ok [some ['a'], some ['"']] ∧
    peek (⟨['"', 'a', '"'], 1, 1, none, none, 0, [], some '"'⟩ : TokState) =
      .ok (some ['"'], ⟨['"', 'a', '"'], 3, 1, none, none, 0, [['"'], ['a']], none⟩) ∧
    tokensN 2 (⟨['"', 'a', '"'], 3, 1, none, none, 0, [['"'], ['a']], none⟩ : TokState) =
      .ok [some ['"'], some ['a']] ∧
    ([some ['a'], some ['"']] : List (Option (List Char))) ≠ [some ['"'], some ['a']] := by
  refine ⟨?_, ?_, ?_, ?_, by decide⟩
  · simp only [next, tokenize]
    rw [scanSkip_token_at ⟨['"', 'a', '"'], 0, 1, none, none, 0, [], none⟩ '"' rfl
      (by decide) (by decide)]
    rfl
  · rfl
  · rfl
  · rfl

/-- C3 amended: a `peek` followed by `next` returns the same token, repeated
`peek` calls return the same token, and when NO string delimiter is pending
at the moment of the peek, inserting the peek leaves the behavior of the
following `next` calls unchanged (`next` after the peek equals `next`
without it, state included).  When a delimiter is pending the last part
fails: the peek returns the pushed-back closing quote and swaps the order
of the body and closing-quote tokens, as the counterexample shows. -/
theorem C3_theorem (st : TokState) (r : Option (List Char)) (st' : TokState)
    (h : peek st = .ok (r, st')) :
    peek st' = .ok (r, st') ∧ (∃ st2, next st' = .ok (r, st2)) ∧
    (st.stringDelim = none → next st' = next st) :=
  ⟨peek_peek _ _ _ h, peek_then_next _ _ _ h,
    fun hd => peek_transparent _ _ _ hd h⟩

/-- C3 witness: peeking the first token of `x y` is idempotent, agrees with
the following `next`, and does not disturb the stream. -/
theorem C3_witness :
    peek ⟨['x', ' ', 'y'], 1, 1, none, none, 0, [['x']], none⟩ =
      .ok (some ['x'], ⟨['x', ' ', 'y'], 1, 1, none, none, 0, [['x']], none⟩) ∧
    (∃ st2, next ⟨['x', ' ', 'y'], 1, 1, none, none, 0, [['x']], none⟩ =
      .ok (some ['x'], st2)) ∧
    ((none : Option Char) = none →
      next ⟨['x', ' ', 'y'], 1, 1, none, none, 0, [['x']], none⟩ =
        next (tokenize ['x', ' ', 'y'])) := by
  have hnext : next (⟨['x', ' ', 'y'], 0, 1, none, none, 0, [], none⟩ : TokState) =
      .ok (some ['x'], ⟨['x', ' ', 'y'], 1, 1, none, none, 0, [], none⟩) := by
    simp only [next]
    rw [scanSkip_token_at ⟨['x', ' ', 'y'], 0, 1, none, none, 0, [], none⟩ 'x' rfl
      (by decide) (by decide)]
    rfl
  have hpeek : peek (tokenize ['x', ' ', 'y']) =
      .ok (some ['x'], ⟨['x', ' ', 'y'], 1, 1, none, none, 0, [['x']], none⟩) := by
    simp only [peek, tokenize]
    rw [hnext]
    rfl
  exact C3_theorem (tokenize ['x', ' ', 'y']) (some ['x']) _ hpeek


/-- C2 counterexample: on the source `///` newline `foo`, tokenizing `foo`
leaves a captured documentation comment whose normalized text is empty and
whose recorded end line 1 equals `line() - 1`, yet the no-argument `cmnt`
returns none instead of the captured text, so the claimed equivalence fails
in the right-to-left direction. -/
theorem C2_counterexample :
    next (tokenize ['/', '/', '/', '\n', 'f', 'o', 'o']) =
      .ok (some ['f', 'o', 'o'],
        ⟨['/', '/', '/', '\n', 'f', 'o', 'o'], 7, 2, some '/', some [], 1, [], none⟩) ∧
    cmnt (⟨['/', '/', '/', '\n', 'f', 'o', 'o'], 7, 2, some '/', some [], 1, [], none⟩ :
        TokState) none =
      .ok (none,
        ⟨['/', '/', '/', '\n', 'f', 'o', 'o'], 7, 2, some '/', some [], 1, [], none⟩) ∧
    ((1 : Int) = (2 : Int) - 1 ∧ (some [] : Option (List Char)) ≠ none) := by
  have hscan : scanSkip (⟨['/', '/', '/', '\n', 'f', 'o', 'o'], 0, 1,
      none, none, 0, [], none⟩ : TokState) =
      .ok (.tokenAt ⟨['/', '/', '/', '\n', 'f', 'o', 'o'], 4, 2, some '/', some [], 1, [], none⟩) := by
    rw [scanSkip]
    show scanSkip (⟨['/', '/', '/', '\n', 'f', 'o', 'o'], 4, 2,
      some '/', some [], 1, [], none⟩ : TokState) = _
    rw [scanSkip_token_at ⟨['/', '/', '/', '\n', 'f', 'o', 'o'], 4, 2,
      some '/', some [], 1, [], none⟩ 'f' rfl (by decide) (by decide)]
  refine ⟨?_, by rfl, by decide, by decide⟩
  simp only [next, tokenize]
  rw [hscan]
  rfl

/-- C2 amended: the no-argument `cmnt` returns the captured text exactly
when the recorded end line equals `line() - 1` AND the captured text is
non-empty (an empty captured text is falsy in the `&& commentText || null`
chain and yields none); any non-none result clears the comment slot and a
none result leaves the state untouched. -/
theorem C2_theorem (st : TokState) (r : Option (List Char)) (st' : TokState)
    (h : cmnt st none = .ok (r, st')) :
    (∀ t : List Char, r = some t ↔
      (st.commentText = some t ∧ t ≠ [] ∧ (st.commentLine : Int) = (st.line : Int) - 1)) ∧
    (r.isSome = true → st' = clearComment st) ∧ (r = none → st' = st) := by
  unfold cmnt at h
  simp only [Except.ok.injEq, Prod.mk.injEq] at h
  obtain ⟨hr, hst⟩ := h
  by_cases hcond : (st.commentLine : Int) = (st.line : Int) - 1
  · cases hct : st.commentText with
    | none =>
      have hretv : (if (st.commentLine : Int) = (st.line : Int) - 1
          then truthyText st.commentText else none) = none := by
        simp only [if_pos hcond, hct, truthyText]
      simp only [hretv] at hr hst
      simp only [Option.isSome_none, Bool.false_eq_true, if_false] at hst
      subst hr
      refine ⟨?_, by simp, fun _ => hst.symm⟩
      intro t
      simp [hct]
    | some t0 =>
      by_cases ht0 : t0 = []
      · have hretv : (if (st.commentLine : Int) = (st.line : Int) - 1
            then truthyText st.commentText else none) = none := by
          simp only [if_pos hcond, hct, truthyText, if_pos ht0]
        simp only [hretv] at hr hst
        simp only [Option.isSome_none, Bool.false_eq_true, if_false] at hst
        subst hr
        refine ⟨?_, by simp, fun _ => hst.symm⟩
        intro t
        constructor
        · intro he
          exact Option.noConfusion he
        · rintro ⟨he, hne, _⟩
          injection he with he
          exact absurd (show t = [] by rw [← he, ht0]) hne
      · have hretv : (if (st.commentLine : Int) = (st.line : Int) - 1
            then truthyText st.commentText else none) = some t0 := by
          simp only [if_pos hcond, hct, truthyText, if_neg ht0]
        simp only [hretv] at hr hst
        simp only [Option.isSome_some, reduceIte, if_true, eq_self_iff_true] at hst
        subst hr
        refine ⟨?_, fun _ => hst.symm, by simp⟩
        intro t
        constructor
        · intro he
          injection he with he
          subst he
          exact ⟨rfl, ht0, hcond⟩
        · rintro ⟨he, _, _⟩
          exact he
  · have hretv : (if (st.commentLine : Int) = (st.line : Int) - 1
        then truthyText st.commentText else none) = none := if_neg hcond
    simp only [hretv] at hr hst
    simp only [Option.isSome_none, Bool.false_eq_true, if_false] at hst
    subst hr
    refine ⟨?_, by simp, fun _ => hst.symm⟩
    intro t
    constructor
    · intro he
      exact Option.noConfusion he
    · rintro ⟨_, _, hc⟩
      exact absurd hc hcond

/-- C2 witness: on the source `/// hello` newline `foo`, after tokenizing
`foo` the slot holds `hello` ending on line 1 with `line()` reporting 2;
`cmnt` returns `hello` (the equivalence holds at this text) and the
returned state is the cleared one. -/
theorem C2_witness :
    ((some ['h', 'e', 'l', 'l', 'o'] : Option (List Char)) = some ['h', 'e', 'l', 'l', 'o'] ↔
      ((⟨['/', '/', '/', ' ', 'h', 'e', 'l', 'l', 'o', '\n', 'f', 'o', 'o'], 13, 2,
          some '/', some ['h', 'e', 'l', 'l', 'o'], 1, [], none⟩ : TokState).commentText =
          some ['h', 'e', 'l', 'l', 'o'] ∧
        ['h', 'e', 'l', 'l', 'o'] ≠ ([] : List Char) ∧
        (((⟨['/', '/', '/', ' ', 'h', 'e', 'l', 'l', 'o', '\n', 'f', 'o', 'o'], 13, 2,
          some '/', some ['h', 'e', 'l', 'l', 'o'], 1, [], none⟩ : TokState).commentLine : Int) =
          ((⟨['/', '/', '/', ' ', 'h', 'e', 'l', 'l', 'o', '\n', 'f', 'o', 'o'], 13, 2,
          some '/', some ['h', 'e', 'l', 'l', 'o'], 1, [], none⟩ : TokState).line : Int) - 1))) ∧
    ((some ['h', 'e', 'l', 'l', 'o'] : Option (List Char)).isSome = true →
      clearComment (⟨['/', '/', '/', ' ', 'h', 'e', 'l', 'l', 'o', '\n', 'f', 'o', 'o'], 13, 2,
          some '/', some ['h', 'e', 'l', 'l', 'o'], 1, [], none⟩ : TokState) =
        clearComment ⟨['/', '/', '/', ' ', 'h', 'e', 'l', 'l', 'o', '\n', 'f', 'o', 'o'], 13, 2,
          some '/', some ['h', 'e', 'l', 'l', 'o'], 1, [], none⟩) :=
  ⟨( C2_theorem ⟨['/', '/', '/', ' ', 'h', 'e', 'l', 'l', 'o', '\n', 'f', 'o', 'o'], 13, 2,
      some '/', some ['h', 'e', 'l', 'l', 'o'], 1, [], none⟩
      (some ['h', 'e', 'l', 'l', 'o'])
      (clearComment ⟨['/', '/', '/', ' ', 'h', 'e', 'l', 'l', 'o', '\n', 'f', 'o', 'o'], 13, 2,
        some '/', some ['h', 'e', 'l', 'l', 'o'], 1, [], none⟩)
      (by rfl)).1 ['h', 'e', 'l', 'l', 'o'],
    ( C2_theorem ⟨['/', '/', '/', ' ', 'h', 'e', 'l', 'l', 'o', '\n', 'f', 'o', 'o'], 13, 2,
      some '/', some ['h', 'e', 'l', 'l', 'o'], 1, [], none⟩
      (some ['h', 'e', 'l', 'l', 'o'])
      (clearComment ⟨['/', '/', '/', ' ', 'h', 'e', 'l', 'l', 'o', '\n', 'f', 'o', 'o'], 13, 2,
        some '/', some ['h', 'e', 'l', 'l', 'o'], 1, [], none⟩)
      (by rfl)).2.1⟩


/-- Extending a consumed span by a newline-free tail does not change its
newline count (no bound on `b` against the length is needed: beyond the
end both spans coincide). -/
theorem countNL_consumed_extend (s : List Char) (a b c : Nat) (hab : a ≤ b) (hbc : b ≤ c)
    (h0 : countNL (consumed s b c) = 0) :
    countNL (consumed s a c) = countNL (consumed s a b) := by
  by_cases hbl : b ≤ s.length
  · rw [consumed_append s a b c hab hbc hbl, countNL_append, h0]
    omega
  · have h1 : s.take b = s := List.take_of_length_le (by omega)
    have h2 : s.take c = s := List.take_of_length_le (by omega)
    unfold consumed
    rw [h1, h2]

/-- One unfolding step of the token-sequence function. -/
theorem tokensN_succ (n : Nat) (st : TokState) (t : Option (List Char)) (st' : TokState)
    (ts : List (Option (List Char))) (h : next st = .ok (t, st'))
    (h2 : tokensN n st' = .ok ts) : tokensN (n + 1) st = .ok (t :: ts) := by
  unfold tokensN
  rw [h]
  simp only [h2]

/-- C10 counterexample: on the source `/**/ foo /// hey` newline `bar`,
tokenizing `foo` leaves the empty-text documentation block comment `/**/`
in the slot with its recorded line 1; calling the trailing form with
`trailingLine = 1` (the line condition is satisfied) does NOT return none:
the falsy empty text forces a `peek`, the peek overwrites the slot with the
line comment `hey` (line 1, type `/`), and the call returns `hey` and
clears the slot — against both halves of the claim for the trailing form. -/
theorem C10_counterexample :
    next (tokenize ['/', '*', '*', '/', ' ', 'f', 'o', 'o', ' ', '/', '/', '/', ' ',
        'h', 'e', 'y', '\n', 'b', 'a', 'r']) =
      .ok (some ['f', 'o', 'o'],
        ⟨['/', '*', '*', '/', ' ', 'f', 'o', 'o', ' ', '/', '/', '/', ' ',
          'h', 'e', 'y', '\n', 'b', 'a', 'r'], 8, 1, some '*', some [], 1, [], none⟩) ∧
    (⟨['/', '*', '*', '/', ' ', 'f', 'o', 'o', ' ', '/', '/', '/', ' ',
        'h', 'e', 'y', '\n', 'b', 'a', 'r'], 8, 1, some '*', some [], 1, [], none⟩ :
      TokState).commentText = some [] ∧
    (⟨['/', '*', '*', '/', ' ', 'f', 'o', 'o', ' ', '/', '/', '/', ' ',
        'h', 'e', 'y', '\n', 'b', 'a', 'r'], 8, 1, some '*', some [], 1, [], none⟩ :
      TokState).commentLine = 1 ∧
    cmnt (⟨['/', '*', '*', '/', ' ', 'f', 'o', 'o', ' ', '/', '/', '/', ' ',
        'h', 'e', 'y', '\n', 'b', 'a', 'r'], 8, 1, some '*', some [], 1, [], none⟩ :
      TokState) (some 1) =
      .ok (some ['h', 'e', 'y'],
        ⟨['/', '*', '*', '/', ' ', 'f', 'o', 'o', ' ', '/', '/', '/', ' ',
          'h', 'e', 'y', '\n', 'b', 'a', 'r'], 20, 2, none, none, 0,
          [['b', 'a', 'r']], none⟩) ∧
    (some ['h', 'e', 'y'] : Option (List Char)) ≠ none := by
  have hscan : scanSkip (⟨['/', '*', '*', '/', ' ', 'f', 'o', 'o', ' ', '/', '/', '/', ' ',
      'h', 'e', 'y', '\n', 'b', 'a', 'r'], 0, 1, none, none, 0, [], none⟩ : TokState) =
      .ok (.tokenAt ⟨['/', '*', '*', '/', ' ', 'f', 'o', 'o', ' ', '/', '/', '/', ' ',
        'h', 'e', 'y', '\n', 'b', 'a', 'r'], 5, 1, some '*', some [], 1, [], none⟩) := by
    rw [scanSkip]
    show scanSkip (⟨['/', '*', '*', '/', ' ', 'f', 'o', 'o', ' ', '/', '/', '/', ' ',
      'h', 'e', 'y', '\n', 'b', 'a', 'r'], 4, 1, some '*', some [], 1, [], none⟩ : TokState) = _
    rw [scanSkip]
    rfl
  have hnext : next (⟨['/', '*', '*', '/', ' ', 'f', 'o', 'o', ' ', '/', '/', '/', ' ',
      'h', 'e', 'y', '\n', 'b', 'a', 'r'], 0, 1, none, none, 0, [], none⟩ : TokState) =
      .ok (some ['f', 'o', 'o'],
        ⟨['/', '*', '*', '/', ' ', 'f', 'o', 'o', ' ', '/', '/', '/', ' ',
          'h', 'e', 'y', '\n', 'b', 'a', 'r'], 8, 1, some '*', some [], 1, [], none⟩) := by
    simp only [next]
    rw [hscan]
    rfl
  have hscan2 : scanSkip (⟨['/', '*', '*', '/', ' ', 'f', 'o', 'o', ' ', '/', '/', '/', ' ',
      'h', 'e', 'y', '\n', 'b', 'a', 'r'], 8, 1, some '*', some [], 1, [], none⟩ : TokState) =
      .ok (.tokenAt ⟨['/', '*', '*', '/', ' ', 'f', 'o', 'o', ' ', '/', '/', '/', ' ',
        'h', 'e', 'y', '\n', 'b', 'a', 'r'], 17, 2, some '/', some ['h', 'e', 'y'], 1,
        [], none⟩) := by
    rw [scanSkip]
    show scanSkip (⟨['/', '*', '*', '/', ' ', 'f', 'o', 'o', ' ', '/', '/', '/', ' ',
      'h', 'e', 'y', '\n', 'b', 'a', 'r'], 17, 2, some '/', some ['h', 'e', 'y'], 1,
      [], none⟩ : TokState) = _
    rw [scanSkip]
    rfl
  have hnext2 : next (⟨['/', '*', '*', '/', ' ', 'f', 'o', 'o', ' ', '/', '/', '/', ' ',
      'h', 'e', 'y', '\n', 'b', 'a', 'r'], 8, 1, some '*', some [], 1, [], none⟩ : TokState) =
      .ok (some ['b', 'a', 'r'],
        ⟨['/', '*', '*', '/', ' ', 'f', 'o', 'o', ' ', '/', '/', '/', ' ',
          'h', 'e', 'y', '\n', 'b', 'a', 'r'], 20, 2, some '/', some ['h', 'e', 'y'], 1,
          [], none⟩) := by
    simp only [next]
    rw [hscan2]
    rfl
  have hpeek : peek (⟨['/', '*', '*', '/', ' ', 'f', 'o', 'o', ' ', '/', '/', '/', ' ',
      'h', 'e', 'y', '\n', 'b', 'a', 'r'], 8, 1, some '*', some [], 1, [], none⟩ : TokState) =
      .ok (some ['b', 'a', 'r'],
        ⟨['/', '*', '*', '/', ' ', 'f', 'o', 'o', ' ', '/', '/', '/', ' ',
          'h', 'e', 'y', '\n', 'b', 'a', 'r'], 20, 2, some '/', some ['h', 'e', 'y'], 1,
          [['b', 'a', 'r']], none⟩) := by
    simp only [peek]
    rw [hnext2]
    rfl
  refine ⟨?_, rfl, rfl, ?_, by decide⟩
  · simp only [tokenize]
    exact hnext
  · simp only [cmnt, truthyText, reduceIte, Option.isSome_none, Bool.false_eq_true,
      if_false]
    rw [hpeek]
    rfl

/-- C10 amended: when the captured documentation comment's normalized text
is the empty string, the no-argument `cmnt` returns none (the empty text is
falsy in `commentLine === line - 1 && commentText || null`) and leaves the
state, including the comment slot, untouched.  The trailing form, however,
first forces a `peek()` because the text is falsy, and then re-evaluates on
the post-peek state: it returns none without clearing only when the text is
still empty after that peek; when the peek captures a new non-empty comment
the call can return that new text and clear the slot, as the counterexample
shows. -/
theorem C10_theorem (st : TokState) (tl : Nat) (hempty : st.commentText = some []) :
    cmnt st none = .ok (none, st) ∧
    (∀ r1 st1, peek st = .ok (r1, st1) → st1.commentText = some [] →
      cmnt st (some tl) = .ok (none, st1)) := by
  constructor
  · simp only [cmnt, hempty, truthyText, reduceIte, ite_self, Option.isSome_none,
      Bool.false_eq_true, if_false]
  · intro r1 st1 hp he1
    simp only [cmnt, hempty, truthyText, reduceIte, Option.isSome_none,
      Bool.false_eq_true, if_false]
    rw [hp]
    simp only [he1, truthyText, reduceIte, ite_self, Option.isSome_none,
      Bool.false_eq_true, if_false]

/-- C10 witness: the state reached after tokenizing `foo` in the source
`///` newline `foo` carries an empty captured documentation comment; the
no-argument `cmnt` returns none leaving the state untouched, and the
trailing form — whose forced peek hits the end of the input and leaves the
slot empty — likewise returns none without clearing, even though the
recorded comment line 1 equals the requested trailing line. -/
theorem C10_witness :
    cmnt (⟨['/', '/', '/', '\n', 'f', 'o', 'o'], 7, 2,
        some '/', some [], 1, [], none⟩ : TokState) none =
      .ok (none, ⟨['/', '/', '/', '\n', 'f', 'o', 'o'], 7, 2,
        some '/', some [], 1, [], none⟩) ∧
    cmnt (⟨['/', '/', '/', '\n', 'f', 'o', 'o'], 7, 2,
        some '/', some [], 1, [], none⟩ : TokState) (some 1) =
      .ok (none, ⟨['/', '/', '/', '\n', 'f', 'o', 'o'], 7, 2,
        some '/', some [], 1, [], none⟩) := by
  have hp : peek (⟨['/', '/', '/', '\n', 'f', 'o', 'o'], 7, 2,
      some '/', some [], 1, [], none⟩ : TokState) =
      .ok (none, ⟨['/', '/', '/', '\n', 'f', 'o', 'o'], 7, 2,
        some '/', some [], 1, [], none⟩) := by
    simp only [peek, next]
    rw [scanSkip_at_eof ⟨['/', '/', '/', '\n', 'f', 'o', 'o'], 7, 2,
      some '/', some [], 1, [], none⟩ rfl]
  exact ⟨( C10_theorem ⟨['/', '/', '/', '\n', 'f', 'o', 'o'], 7, 2,
      some '/', some [], 1, [], none⟩ 1 rfl).1,
    ( C10_theorem ⟨['/', '/', '/', '\n', 'f', 'o', 'o'], 7, 2,
      some '/', some [], 1, [], none⟩ 1 rfl).2 none
      ⟨['/', '/', '/', '\n', 'f', 'o', 'o'], 7, 2, some '/', some [], 1, [], none⟩
      hp rfl⟩

/-- C6 counterexample: on the source `/// hi` (a documentation line comment
not terminated by a newline), `next` reports end of input, but the comment
text is NOT captured: the scanner returns before `setComment` runs, so the
comment slot stays empty, contradicting the capture half of the claim. -/
theorem C6_counterexample :
    next (tokenize ['/', '/', '/', ' ', 'h', 'i']) =
      .ok (none, ⟨['/', '/', '/', ' ', 'h', 'i'], 6, 1, none, none, 0, [], none⟩) ∧
    (⟨['/', '/', '/', ' ', 'h', 'i'], 6, 1, none, none, 0, [], none⟩ :
      TokState).commentText = none := by
  refine ⟨?_, rfl⟩
  simp only [next, tokenize]
  rw [scanSkip_line_comment_eof ⟨['/', '/', '/', ' ', 'h', 'i'], 0, 1,
    none, none, 0, [], none⟩ rfl rfl (by decide)]
  rfl

/-- C6 amended: a line comment running to the end of the input makes `next`
report end of input (no error, the implicit line end), with the cursor
parked at the end; but the comment slot is left exactly as it was — the
text of the unterminated documentation comment is NOT captured, against
the capture half of the claim. -/
theorem C6_theorem (st : TokState)
    (hstack : st.stack = []) (hdelim : st.stringDelim = none)
    (h1 : st.source[st.offset]? = some '/')
    (h2 : st.source[st.offset + 1]? = some '/')
    (h3 : '\n' ∉ st.source.drop (st.offset + 2)) :
    next st = .ok (none, { st with offset := st.source.length }) ∧
    ({ st with offset := st.source.length } : TokState).commentText = st.commentText ∧
    ({ st with offset := st.source.length } : TokState).commentType = st.commentType ∧
    ({ st with offset := st.source.length } : TokState).commentLine = st.commentLine := by
  refine ⟨?_, rfl, rfl, rfl⟩
  simp only [next, hstack, hdelim]
  rw [scanSkip_line_comment_eof st h1 h2 h3]
  simp only [hstack, hdelim]

/-- C6 witness: on the source `//hi` the lexer reaches end of input without
an error and the comment slot is unchanged. -/
theorem C6_witness :
    next (⟨['/', '/', 'h', 'i'], 0, 1, none, none, 0, [], none⟩ : TokState) =
      .ok (none, ⟨['/', '/', 'h', 'i'], 4, 1, none, none, 0, [], none⟩) ∧
    (⟨['/', '/', 'h', 'i'], 4, 1, none, none, 0, [], none⟩ : TokState).commentText =
      (⟨['/', '/', 'h', 'i'], 0, 1, none, none, 0, [], none⟩ : TokState).commentText ∧
    (⟨['/', '/', 'h', 'i'], 4, 1, none, none, 0, [], none⟩ : TokState).commentType =
      (⟨['/', '/', 'h', 'i'], 0, 1, none, none, 0, [], none⟩ : TokState).commentType ∧
    (⟨['/', '/', 'h', 'i'], 4, 1, none, none, 0, [], none⟩ : TokState).commentLine =
      (⟨['/', '/', 'h', 'i'], 0, 1, none, none, 0, [], none⟩ : TokState).commentLine :=
  C6_theorem ⟨['/', '/', 'h', 'i'], 0, 1, none, none, 0, [], none⟩ rfl rfl rfl rfl
    (by decide)

/-- C7 counterexample: when the lone `/` is the last character of the
source, `next` does not return the token `/`: it throws
`illegal("comment")` (the code checks `++offset === length` before looking
at the following character). -/
theorem C7_counterexample :
    next (tokenize ['/']) = .error (.illegalComment 1) := by
  simp only [next, tokenize]
  rw [scanSkip_slash_at_end ⟨['/'], 0, 1, none, none, 0, [], none⟩ rfl rfl]

/-- C7 amended: a `/` followed by a character that is neither `/` nor `*`
is returned as the one-character token `/`; but a `/` as the last character
of the source raises `illegal("comment")` instead of being returned as a
token, against the "including the last character" half of the claim. -/
theorem C7_theorem (st : TokState)
    (hstack : st.stack = []) (hdelim : st.stringDelim = none)
    (h1 : st.source[st.offset]? = some '/') :
    (∀ c, st.source[st.offset + 1]? = some c → c ≠ '/' → c ≠ '*' →
      next st = .ok (some ['/'], { st with offset := st.offset + 1 })) ∧
    (st.offset + 1 = st.source.length → next st = .error (.illegalComment st.line)) := by
  constructor
  · intro c h2 hc1 hc2
    simp only [next, hstack, hdelim]
    rw [scanSkip_slash_token st c h1 h2 hc1 hc2]
    simp only [hstack, hdelim]
  · intro h2
    simp only [next, hstack, hdelim]
    rw [scanSkip_slash_at_end st h1 h2]

/-- C7 witness: on `/b` the slash comes back as the token `/`; on `/` at
the end of the input the call raises `illegal comment` at line 1. -/
theorem C7_witness :
    next (⟨['/', 'b'], 0, 1, none, none, 0, [], none⟩ : TokState) =
      .ok (some ['/'], ⟨['/', 'b'], 1, 1, none, none, 0, [], none⟩) ∧
    next (⟨['/'], 0, 1, none, none, 0, [], none⟩ : TokState) =
      .error (.illegalComment 1) :=
  ⟨( C7_theorem ⟨['/', 'b'], 0, 1, none, none, 0, [], none⟩ rfl rfl rfl).1 'b' rfl
      (by decide) (by decide),
    ( C7_theorem ⟨['/'], 0, 1, none, none, 0, [], none⟩ rfl rfl rfl).2 rfl⟩

/-- C1 counterexample: on the input `"a\"b"` the token sequence is the
quote, then `ab`, then the quote: the escaped quote does not terminate the
literal (as claimed), but the decoded content is `ab`, not `a"b` — the
decoder drops the unknown escape `\"` entirely (`"` is not in
`unescapeMap`). -/
theorem C1_counterexample :
    tokensN 4 (tokenize ['"', 'a', '\\', '"', 'b', '"']) =
      .ok [some ['"'], some ['a', 'b'], some ['"'], none] ∧
    (['a', 'b'] : List Char) ≠ ['a', '"', 'b'] := by
  refine ⟨?_, by decide⟩
  have h1 : next (⟨['"', 'a', '\\', '"', 'b', '"'], 0, 1,
      none, none, 0, [], none⟩ : TokState) =
      .ok (some ['"'], ⟨['"', 'a', '\\', '"', 'b', '"'], 1, 1,
        none, none, 0, [], some '"'⟩) := by
    simp only [next]
    rw [scanSkip_token_at ⟨['"', 'a', '\\', '"', 'b', '"'], 0, 1,
      none, none, 0, [], none⟩ '"' rfl (by decide) (by decide)]
    rfl
  have h2 : next (⟨['"', 'a', '\\', '"', 'b', '"'], 1, 1,
      none, none, 0, [], some '"'⟩ : TokState) =
      .ok (some ['a', 'b'], ⟨['"', 'a', '\\', '"', 'b', '"'], 6, 1,
        none, none, 0, [['"']], none⟩) := by rfl
  have h3 : next (⟨['"', 'a', '\\', '"', 'b', '"'], 6, 1,
      none, none, 0, [['"']], none⟩ : TokState) =
      .ok (some ['"'], ⟨['"', 'a', '\\', '"', 'b', '"'], 6, 1,
        none, none, 0, [], none⟩) := by rfl
  have h4 : next (⟨['"', 'a', '\\', '"', 'b', '"'], 6, 1,
      none, none, 0, [], none⟩ : TokState) =
      .ok (none, ⟨['"', 'a', '\\', '"', 'b', '"'], 6, 1,
        none, none, 0, [], none⟩) := by
    simp only [next]
    rw [scanSkip_at_eof ⟨['"', 'a', '\\', '"', 'b', '"'], 6, 1,
      none, none, 0, [], none⟩ rfl]
  simp only [tokenize]
  exact tokensN_succ 3 _ _ _ _ h1 (tokensN_succ 2 _ _ _ _ h2
    (tokensN_succ 1 _ _ _ _ h3 (tokensN_succ 0 _ _ _ _ h4 rfl)))

/-- C1 amended: with a pending string delimiter whose regex matches with
the closing quote at index `k`, `next` returns the escape-decoded body
(decoded by `unescape`, which drops unknown escapes such as `\"` rather
than keeping the character) and pushes the quote, and the following `next`
replays the quote token: together with the opening-quote token this gives
the three-token pattern quote, decoded-body, quote of the claim. -/
theorem C1_theorem (st : TokState) (D : Char) (i0 k : Nat)
    (hstack : st.stack = []) (hdelim : st.stringDelim = some D)
    (hexec : execString (if D = '\'' then '\'' else '"') st.source (st.offset - 1) =
      some (i0, k)) :
    next st = .ok (some (unescape (consumed st.source (i0 + 1) k)),
      { st with offset := k + 1, stack := [[D]], stringDelim := none }) ∧
    next { st with offset := k + 1, stack := [[D]], stringDelim := none } =
      .ok (some [D], { st with offset := k + 1, stack := [], stringDelim := none }) := by
  constructor
  · simp only [next, hstack, hdelim, readString, hexec, List.nil_append]
  · exact next_stack_cons _ _ _ rfl

/-- C1 witness: on the pending-string state of `"a"` the body token `a` is
returned with the quote pushed, and the next call replays the quote. -/
theorem C1_witness :
    next (⟨['"', 'a', '"'], 1, 1, none, none, 0, [], some '"'⟩ : TokState) =
      .ok (some ['a'], ⟨['"', 'a', '"'], 3, 1, none, none, 0, [['"']], none⟩) ∧
    next (⟨['"', 'a', '"'], 3, 1, none, none, 0, [['"']], none⟩ : TokState) =
      .ok (some ['"'], ⟨['"', 'a', '"'], 3, 1, none, none, 0, [], none⟩) :=
  C1_theorem ⟨['"', 'a', '"'], 1, 1, none, none, 0, [], some '"'⟩ '"' 0 2 rfl rfl rfl

/-- C4 counterexample: reading the string body `a` newline `b` consumes a
newline but leaves the line counter at 1: the newline inside the quoted
string body is not counted, against the "including newlines inside quoted
string bodies" half of the claim. -/
theorem C4_counterexample :
    next (⟨['"', 'a', '\n', 'b', '"'], 1, 1, none, none, 0, [], some '"'⟩ : TokState) =
      .ok (some ['a', '\n', 'b'],
        ⟨['"', 'a', '\n', 'b', '"'], 5, 1, none, none, 0, [['"']], none⟩) ∧
    countNL (consumed ['"', 'a', '\n', 'b', '"'] 1 5) = 1 ∧
    (⟨['"', 'a', '\n', 'b', '"'], 5, 1, none, none, 0, [['"']], none⟩ : TokState).line = 1 ∧
    (1 : Nat) ≠ 1 + countNL (consumed ['"', 'a', '\n', 'b', '"'] 1 5) :=
  ⟨by rfl, by decide, rfl, by decide⟩

/-- C4 amended: on the scanning path (whitespace, comments, token
extraction) the line counter grows exactly by the newlines the cursor
consumed; but `readString` never changes the line counter, so newlines
inside quoted string bodies are NOT counted, against that half of the
claim. -/
theorem C4_theorem (st : TokState) (r : Option (List Char)) (st' : TokState)
    (hstack : st.stack = []) (hdelim : st.stringDelim = none)
    (h : next st = .ok (r, st')) :
    st'.line = st.line + countNL (consumed st.source st.offset st'.offset) ∧
    (∀ D tok st2, readString st D = .ok (tok, st2) → st2.line = st.line) := by
  constructor
  · simp only [next, hstack, hdelim] at h
    cases hscan : scanSkip st with
    | error e => rw [hscan] at h; simp at h
    | ok stop =>
      rw [hscan] at h
      obtain ⟨s1, s2, s3, s4, s5, s6, s7, s8⟩ := scanSkip_spec st stop hscan
      cases stop with
      | eof sx =>
        simp only [Except.ok.injEq, Prod.mk.injEq] at h
        rw [← h.2]
        exact s5
      | slash sx =>
        simp only [Except.ok.injEq, Prod.mk.injEq] at h
        rw [← h.2]
        exact s5
      | tokenAt sx =>
        simp only [Except.ok.injEq, Prod.mk.injEq] at h
        rw [← h.2]
        obtain ⟨e1, e2, e3, e4, e5, e6, e7, e8⟩ := extractToken_spec sx
        simp only [stateOf] at s1 s4 s5
        have hz : countNL (consumed st.source sx.offset (extractToken sx).2.offset) = 0 := by
          rw [← s1]
          exact e8 (fun c hc => s8 sx c rfl hc)
        have hsplit : countNL (consumed st.source st.offset (extractToken sx).2.offset) =
            countNL (consumed st.source st.offset sx.offset) :=
          countNL_consumed_extend st.source st.offset sx.offset
            (extractToken sx).2.offset s4 e7 hz
        rw [e3, hsplit, s5]
  · intro D tok st2 hrs
    simp only [readString] at hrs
    cases hex : execString (if D = '\'' then '\'' else '"') st.source (st.offset - 1) with
    | none => rw [hex] at hrs; simp at hrs
    | some q =>
      rw [hex] at hrs
      obtain ⟨i0, k⟩ := q
      simp only [Except.ok.injEq, Prod.mk.injEq] at hrs
      rw [← hrs.2]

/-- C4 witness: consuming the whitespace-newline prefix of ` `newline`a`
advances the line counter by the one newline consumed; and on a no-comment
state the `readString` of `"a` newline `b"` leaves the line counter at 1. -/
theorem C4_witness :
    ((⟨[' ', '\n', 'a'], 3, 2, none, none, 0, [], none⟩ : TokState).line =
      (⟨[' ', '\n', 'a'], 0, 1, none, none, 0, [], none⟩ : TokState).line +
        countNL (consumed [' ', '\n', 'a'] 0
          (⟨[' ', '\n', 'a'], 3, 2, none, none, 0, [], none⟩ : TokState).offset)) ∧
    ((⟨['"', 'a', '\n', 'b', '"'], 5, 1, none, none, 0, [['"']], none⟩ : TokState).line =
      (⟨['"', 'a', '\n', 'b', '"'], 1, 1, none, none, 0, [], none⟩ : TokState).line) := by
  have hscan : scanSkip (⟨[' ', '\n', 'a'], 0, 1, none, none, 0, [], none⟩ : TokState) =
      .ok (.tokenAt ⟨[' ', '\n', 'a'], 2, 2, none, none, 0, [], none⟩) := by
    rw [scanSkip]
    rfl
  have hnext : next (⟨[' ', '\n', 'a'], 0, 1, none, none, 0, [], none⟩ : TokState) =
      .ok (some ['a'], ⟨[' ', '\n', 'a'], 3, 2, none, none, 0, [], none⟩) := by
    simp only [next]
    rw [hscan]
    rfl
  have hnext2 : next (⟨['"', 'a', '\n', 'b', '"'], 1, 1, none, none, 0, [], none⟩ : TokState) =
      .ok (some ['a'], ⟨['"', 'a', '\n', 'b', '"'], 2, 1, none, none, 0, [], none⟩) := by
    simp only [next]
    rw [scanSkip_token_at ⟨['"', 'a', '\n', 'b', '"'], 1, 1, none, none, 0, [], none⟩ 'a'
      rfl (by decide) (by decide)]
    rfl
  exact ⟨(C4_theorem _ _ _ rfl rfl hnext).1,
    (C4_theorem _ _ _ rfl rfl hnext2).2 '"' (unescape ['a', '\n', 'b'])
      ⟨['"', 'a', '\n', 'b', '"'], 5, 1, none, none, 0, [['"']], none⟩ rfl⟩

end Tokenize
